import Mathlib

/-!
Shallow embedding of organize_desktop.py.

The program moves the regular files found directly inside a source directory
into category subfolders chosen by file extension, records the moves in a
JSON ledger file (one list of run records), and can undo the most recent run
by replaying its recorded moves in reverse.

The embedding models the filesystem as a finite association list from
absolute paths (component lists) to file payloads, together with a list of
existing directory paths.  File contents only matter where the program parses
them (the JSON ledger), so a payload is either an opaque blob (standing for
content that json.loads rejects), a JSON list of run records, or a single
JSON run record object (the legacy ledger shape).  Machine-level details the
program never observes (bytes, permissions, inode identity) are abstracted
away; st_size is carried as a natural number and st_mtime as the
(year, month) pair that the --by-date bucketing extracts from it.

Every fallible step of the source (mkdir over a file, stat on a vanished
entry, json.loads on garbage, write_text onto a directory) is modelled as an
explicit failure outcome standing for the uncaught Python exception.
-/

namespace OrganizeDesktop

/-- An absolute filesystem path, as the list of its components. -/
abbrev FsPath := List String

/-- One recorded relocation, as stored in the ledger: Python dict
`{"from": ..., "to": ..., "dry_run"?: true}` built at lines 120 and 123. -/
structure MoveRec where
  sourcePath : FsPath
  destPath : FsPath
  dryRunFlag : Bool
deriving DecidableEq, Repr

/-- One run record, Python dict `{"timestamp": ..., "moves": [...]}`
(line 130).  The ISO timestamp string is abstracted to a number. -/
structure RunRecord where
  timestamp : Nat
  moves : List MoveRec
deriving DecidableEq, Repr

/-- File payload, at the granularity the program observes.
`blob` is any content json.loads raises on; `jlist` is a JSON array of run
records; `jrun` is a single JSON run-record object (legacy ledger shape). -/
inductive Content where
  | blob (id : Nat)
  | jlist (runs : List RunRecord)
  | jrun (r : RunRecord)
deriving DecidableEq, Repr

/-- A regular file: payload plus the stat fields the program reads.
`ym` is the (year, month) of st_mtime, the only part --by-date looks at. -/
structure FileInfo where
  data : Content
  size : Nat
  ym : Nat × Nat
deriving DecidableEq, Repr

/-- Filesystem state: regular files (an association list keyed by path,
first binding wins) and existing directories. -/
structure Fs where
  files : List (FsPath × FileInfo)
  dirs : List FsPath
deriving DecidableEq, Repr

/-- First binding for path `p` in an association list of files. -/
def lookupP : List (FsPath × FileInfo) → FsPath → Option FileInfo
  | [], _ => none
  | e :: es, p => if e.1 = p then some e.2 else lookupP es p

/-- A regular file exists at `p`. -/
def Fs.IsFile (fs : Fs) (p : FsPath) : Prop := (lookupP fs.files p).isSome = true

/-- A directory exists at `p`. -/
def Fs.IsDir (fs : Fs) (p : FsPath) : Prop := p ∈ fs.dirs

/-- Python Path.exists(): something (file or directory) is at `p`. -/
def Fs.PathExists (fs : Fs) (p : FsPath) : Prop := fs.IsFile p ∨ fs.IsDir p

instance (fs : Fs) (p : FsPath) : Decidable (fs.IsFile p) := by
  unfold Fs.IsFile; infer_instance

instance (fs : Fs) (p : FsPath) : Decidable (fs.IsDir p) := by
  unfold Fs.IsDir; infer_instance

instance (fs : Fs) (p : FsPath) : Decidable (fs.PathExists p) := by
  unfold Fs.PathExists; infer_instance

/-- Remove any binding at path `p`. -/
def Fs.eraseFile (fs : Fs) (p : FsPath) : Fs :=
  { fs with files := fs.files.filter (fun e => decide (e.1 ≠ p)) }

/-- Create or overwrite the regular file at `p`. -/
def Fs.setFile (fs : Fs) (p : FsPath) (fi : FileInfo) : Fs :=
  { fs with files := (p, fi) :: (fs.eraseFile p).files }

/-- The nonempty ancestor paths of `p`, shortest first (including `p`):
what mkdir(parents=True) has to create. -/
def ancestorsOf (p : FsPath) : List FsPath :=
  (List.range p.length).map (fun k => p.take (k + 1))

/-- Append each path of `qs` that is not already present. -/
def addDirs (ds : List FsPath) : List FsPath → List FsPath
  | [] => ds
  | q :: qs => addDirs (if q ∈ ds then ds else ds ++ [q]) qs

/-- Path.mkdir(parents=True, exist_ok=True): creates the missing ancestors
of `p`; raises (modelled as `none`) when a regular file blocks the way. -/
def Fs.mkdirP (fs : Fs) (p : FsPath) : Option Fs :=
  if (ancestorsOf p).any (fun q => (lookupP fs.files q).isSome) then none
  else some { fs with dirs := addDirs fs.dirs (ancestorsOf p) }

/-- Last component of a path (the empty string for the root, which never
occurs in the program's uses). -/
def lastName (p : FsPath) : String := p.getLastD ""

/-- Replace the last path component, Python Path.with_name. -/
def withName (p : FsPath) (name : String) : FsPath := p.dropLast ++ [name]

/-- shutil.move as exercised by this program, restricted to regular files.
Moving onto an existing directory drops the file inside it (raising if the
landing path is taken); moving onto an existing file overwrites it
(os.rename on POSIX).  A missing or non-regular `src` is a failure: the
program never moves directories through its own records. -/
def Fs.shutilMove (fs : Fs) (src dst : FsPath) : Option Fs :=
  match lookupP fs.files src with
  | none => none
  | some fi =>
    if fs.IsDir dst then
      let real := dst ++ [lastName src]
      if fs.PathExists real then none
      else some ((fs.eraseFile src).setFile real fi)
    else some ((fs.eraseFile src).setFile dst fi)

/-- The metadata file name, line 39 of the source. -/
def METADATA_FILE : String := ".organize_history.json"

/-- The category table, lines 29-37 of the source (a Python dict, which
iterates in insertion order; the extension sets are kept as lists). -/
def CATEGORIES : List (String × List String) :=
  [("Images", [".png", ".jpg", ".jpeg", ".gif", ".bmp", ".svg", ".webp"]),
   ("Documents", [".pdf", ".docx", ".doc", ".txt", ".md", ".pptx", ".xlsx", ".csv"]),
   ("Archives", [".zip", ".tar", ".gz", ".rar", ".7z"]),
   ("Code", [".py", ".js", ".ts", ".java", ".c", ".cpp", ".go", ".rb", ".rs"]),
   ("Audio", [".mp3", ".wav", ".flac", ".m4a"]),
   ("Video", [".mp4", ".mkv", ".mov", ".avi"]),
   ("Installers", [".exe", ".msi", ".dmg", ".deb", ".apk"])]

/-- First category whose extension set contains `s`. -/
def findCat (s : String) : List (String × List String) → Option String
  | [] => none
  | (cat, exts) :: rest => if s ∈ exts then some cat else findCat s rest

/-- ASCII lowercase of one character.  Python's str.lower() also folds
non-ASCII letters, but every extension in the table is ASCII, so the two
agree on everything the comparison can distinguish. -/
def lowerChar (c : Char) : Char :=
  if 65 ≤ c.toNat ∧ c.toNat ≤ 90 then Char.ofNat (c.toNat + 32) else c

/-- ext.lower() of line 43. -/
def lowerStr (s : String) : String := ⟨s.toList.map lowerChar⟩

/-- which_category (lines 42-47): lowercase the extension, return the first
matching category, else None. -/
def whichCategory (ext : String) : Option String :=
  findCat (lowerStr ext) CATEGORIES

/-- Index of the last '.' in a character list, if any. -/
def lastDotPos : List Char → Option Nat
  | [] => none
  | c :: cs =>
    match lastDotPos cs with
    | some k => some (k + 1)
    | none => if c = '.' then some 0 else none

/-- Split a file name into (stem, suffix) the way pathlib does: the suffix
starts at the last dot, provided that dot is neither the leading character
nor the last one. -/
def splitName (name : String) : String × String :=
  let cs := name.toList
  match lastDotPos cs with
  | some i =>
    if 0 < i ∧ i + 1 < cs.length then (⟨cs.take i⟩, ⟨cs.drop i⟩)
    else (name, "")
  | none => (name, "")

/-- Path.stem of a file name. -/
def pathStem (name : String) : String := (splitName name).1

/-- Path.suffix of a file name. -/
def pathSuffix (name : String) : String := (splitName name).2

/-- The collision-suffixed name tried at loop counter `n`:
f-string stem_counter+suffix at line 73. -/
def candName (name : String) (n : Nat) : String :=
  pathStem name ++ "_" ++ toString n ++ pathSuffix name

/-- The n-th candidate destination of safe_move's while loop: the naturally
computed destination for n = 0, else the numbered variant. -/
def nthCand (dest : FsPath) (n : Nat) : FsPath :=
  if n = 0 then dest else withName dest (candName (lastName dest) n)

/-- The while loop of safe_move (lines 70-74): walk final through the
numbered candidates until a free path appears.  `fuel` bounds the walk; the
caller passes more fuel than there are occupied paths, and since the
candidate names are pairwise distinct the source loop always stops within
that bound, so `none` stands for a state this program cannot reach. -/
def findFreeLoop (fs : Fs) (dest : FsPath) : FsPath → Nat → Nat → Option FsPath
  | _, _, 0 => none
  | final, counter, fuel + 1 =>
    if fs.PathExists final then
      findFreeLoop fs dest (withName dest (candName (lastName dest) counter)) (counter + 1) fuel
    else some final

/-- safe_move (lines 64-78).  Returns the updated filesystem and, in live
mode, the path actually used (Python returns None on a dry run, line 78).
`none` overall is an uncaught exception. -/
def safeMove (fs : Fs) (src dest : FsPath) (dryRun : Bool) : Option (Fs × Option FsPath) :=
  match fs.mkdirP dest.dropLast with
  | none => none
  | some fs1 =>
    if dryRun then some (fs1, none)
    else
      match findFreeLoop fs1 dest dest 1 (fs1.files.length + fs1.dirs.length + 1) with
      | none => none
      | some final =>
        match fs1.shutilMove src final with
        | none => none
        | some fs2 => some (fs2, some final)

/-- The run configuration taken from the parsed CLI arguments. -/
structure Config where
  source : FsPath
  destParent : Option FsPath
  dryRun : Bool
  byDate : Bool
  minSizeKb : Nat
deriving DecidableEq, Repr

/-- dest_parent or source (lines 83-86). -/
def destRoot (cfg : Config) : FsPath := cfg.destParent.getD cfg.source

/-- The YYYY-MM bucket string (line 112), month zero-padded to two digits. -/
def dateBucket (ym : Nat × Nat) : String :=
  toString ym.1 ++ "-" ++ (if ym.2 < 10 then "0" ++ toString ym.2 else toString ym.2)

/-- The target directory computed for one file (lines 107-113). -/
def targetParentFor (cfg : Config) (fi : FileInfo) (name : String) : FsPath :=
  let category := whichCategory (pathSuffix name)
  let folder := category.getD "Other"
  if cfg.byDate then destRoot cfg ++ [folder, dateBucket fi.ym]
  else destRoot cfg ++ [folder]

/-- The body of the run_organize loop (lines 93-123) for one directory
entry.  State is the filesystem plus the accumulated `moves` list.  `none`
is an uncaught exception (stat on a vanished entry, mkdir over a file). -/
def stepItem (cfg : Config) (st : Fs × List MoveRec) (name : String) :
    Option (Fs × List MoveRec) :=
  let fs := st.1
  let item := cfg.source ++ [name]
  if fs.IsDir item then
    -- lines 94-101: every directory is skipped (the category-name and
    -- METADATA_FILE tests both sit inside this branch and only ever skip)
    some st
  else
    match lookupP fs.files item with
    | none => none -- item.stat() raises on an entry that is gone
    | some fi =>
      if fi.size < cfg.minSizeKb * 1024 then some st
      else
        let targetParent := targetParentFor cfg fi name
        match fs.mkdirP targetParent with
        | none => none -- line 115 raises when a file blocks the path
        | some fs1 =>
          let target := targetParent ++ [name]
          match safeMove fs1 item target cfg.dryRun with
          | none => none
          | some (fs2, some final) => some (fs2, st.2 ++ [⟨item, final, false⟩])
          | some (fs2, none) => some (fs2, st.2 ++ [⟨item, target, true⟩])

/-- The run_organize loop over the directory listing taken at entry. -/
def runLoop (cfg : Config) : Fs × List MoveRec → List String → Option (Fs × List MoveRec)
  | st, [] => some st
  | st, e :: es =>
    match stepItem cfg st e with
    | none => none
    | some st' => runLoop cfg st' es

/-- Outcome of run_organize. -/
inductive OrgResult where
  | fatal -- sys.exit(1): source is not a directory (lines 88-90)
  | crashed -- an uncaught exception
  | done (fs : Fs) (moves : List MoveRec)
deriving DecidableEq, Repr

/-- The stat fields stored for a freshly written ledger file.  No claim and
no code path of this program reads the ledger's own st_size or st_mtime, so
they are abstracted to constants. -/
def ledgerInfo (runs : List RunRecord) : FileInfo := ⟨.jlist runs, 1, (1970, 1)⟩

/-- The history-saving tail of run_organize (lines 126-143), live mode. -/
def writeHistory (fs : Fs) (source : FsPath) (ts : Nat) (moves : List MoveRec) : OrgResult :=
  let historyPath := source ++ [METADATA_FILE]
  let history : RunRecord := ⟨ts, moves⟩
  match lookupP fs.files historyPath with
  | some fi =>
    let o : List RunRecord :=
      match fi.data with
      | .blob _ => [history] -- json.loads raised; except: o = [], then append
      | .jlist rs => rs ++ [history] -- isinstance(o, list): append
      | .jrun r => [r, history] -- legacy single record: o = [o, history]
    .done (fs.setFile historyPath (ledgerInfo o)) moves
  | none =>
    if fs.IsDir historyPath then .crashed -- exists() holds but read_text raises
    else .done (fs.setFile historyPath (ledgerInfo [history])) moves

/-- run_organize (lines 81-143).  `entries` is the directory listing
source.iterdir() yields, `ts` the timestamp of line 130. -/
def runOrganize (fs : Fs) (cfg : Config) (ts : Nat) (entries : List String) : OrgResult :=
  if ¬ fs.IsDir cfg.source then .fatal
  else
    match runLoop cfg (fs, []) entries with
    | none => .crashed
    | some (fs1, moves) =>
      if cfg.dryRun then .done fs1 moves -- lines 127-128: nothing is saved
      else writeHistory fs1 cfg.source ts moves

/-- Outcome of run_undo. -/
inductive UndoResult where
  | noHistory -- "No history file found to undo."
  | corrupt -- "History file corrupt or empty."
  | crashed -- an uncaught exception
  | ok
deriving DecidableEq, Repr

/-- One turn of the undo loop (lines 160-168): move the file at the
recorded destination back to the recorded source, re-creating directories;
a missing destination is skipped with only a warning. -/
def restoreStep (fs : Fs) (m : MoveRec) : Option Fs :=
  let frm := m.destPath
  let toP := m.sourcePath
  if fs.PathExists frm then
    match fs.mkdirP toP.dropLast with
    | none => none
    | some fs1 => fs1.shutilMove frm toP
  else some fs -- logger.warning, nothing else happens

/-- Replay a move list in the given order; on an exception the error value
carries the state at the point of the crash. -/
def replayRev (fs : Fs) : List MoveRec → Except Fs Fs
  | [] => .ok fs
  | m :: ms =>
    match restoreStep fs m with
    | none => .error fs
    | some fs' => replayRev fs' ms

/-- run_undo (lines 146-172). -/
def runUndo (fs : Fs) (source : FsPath) : UndoResult × Fs :=
  let historyPath := source ++ [METADATA_FILE]
  match lookupP fs.files historyPath with
  | none =>
    if fs.IsDir historyPath then (.crashed, fs) -- exists() holds, read_text raises
    else (.noHistory, fs)
  | some fi =>
    match fi.data with
    | .blob _ => (.crashed, fs) -- json.loads raises, uncaught (line 153)
    | .jrun _ => (.corrupt, fs) -- not a list (line 154)
    | .jlist [] => (.corrupt, fs) -- empty list (line 154)
    | .jlist (r0 :: rs') =>
      let rs := r0 :: rs'
      let lastRec := rs.getLast (by simp)
      let remaining := rs.dropLast
      match replayRev fs lastRec.moves.reverse with
      | .error fsx => (.crashed, fsx)
      | .ok fs1 =>
        if fs1.IsDir historyPath then (.crashed, fs1) -- write_text onto a directory
        else (.ok, fs1.setFile historyPath (ledgerInfo remaining))

/-- The folder names a run can create directly under the destination root:
the category names plus the fallback (line 108). -/
def folderNames : List String := CATEGORIES.map Prod.fst ++ ["Other"]

/-- Invariant tying the state reached part-way through a live run in the
default destination configuration (dest_parent omitted, so category folders
are created inside the source) to the initial state `fs0`.  `P` is the list
of directory entries already processed, `mvs` the records accumulated so
far. -/
structure RunInv (fs0 : Fs) (src : FsPath) (P : List String) (fs : Fs)
    (mvs : List MoveRec) : Prop where
  live : ∀ m ∈ mvs, m.dryRunFlag = false
  srcShape : ∀ m ∈ mvs, ∃ name ∈ P, m.sourcePath = src ++ [name]
  srcNodup : (mvs.map MoveRec.sourcePath).Nodup
  dstNodup : (mvs.map MoveRec.destPath).Nodup
  dstShape : ∀ m ∈ mvs, ∃ f ∈ folderNames, ∃ r : List String,
    r ≠ [] ∧ m.destPath = src ++ f :: r
  content : ∀ m ∈ mvs, lookupP fs.files m.destPath = lookupP fs0.files m.sourcePath ∧
    (lookupP fs0.files m.sourcePath).isSome = true
  vacated : ∀ m ∈ mvs, lookupP fs.files m.sourcePath = none
  frame : ∀ p : FsPath, (∀ m ∈ mvs, p ≠ m.sourcePath ∧ p ≠ m.destPath) →
    lookupP fs.files p = lookupP fs0.files p
  dirsGrow : ∀ d ∈ fs0.dirs, d ∈ fs.dirs
  dirsChar : ∀ d ∈ fs.dirs, d ∈ fs0.dirs ∨ (∃ k, d = src.take (k + 1)) ∨
    (∃ f ∈ folderNames, (d = src ++ [f] ∨ ∃ y, d = src ++ [f, y]))
  srcNotDir : ∀ m ∈ mvs, m.sourcePath ∉ fs0.dirs

/-! ## Basic lemmas about the filesystem model -/

theorem lookupP_filter_self (p : FsPath) :
    ∀ es : List (FsPath × FileInfo),
      lookupP (es.filter fun e => decide (e.1 ≠ p)) p = none := by
  intro es
  induction es with
  | nil => rfl
  | cons e es ih =>
    rw [List.filter_cons]
    by_cases h : e.1 = p
    · rw [if_neg (by simp [h])]
      exact ih
    · rw [if_pos (by simp [h])]
      simp only [lookupP]
      rw [if_neg h]
      exact ih

theorem lookupP_filter_ne (p q : FsPath) (hq : q ≠ p) :
    ∀ es : List (FsPath × FileInfo),
      lookupP (es.filter fun e => decide (e.1 ≠ p)) q = lookupP es q := by
  intro es
  induction es with
  | nil => rfl
  | cons e es ih =>
    rw [List.filter_cons]
    by_cases h : e.1 = p
    · rw [if_neg (by simp [h])]
      have hne : ¬ e.1 = q := by rw [h]; exact fun hh => hq hh.symm
      rw [ih]
      conv_rhs => simp only [lookupP]
      rw [if_neg hne]
    · rw [if_pos (by simp [h])]
      simp only [lookupP]
      by_cases h2 : e.1 = q
      · rw [if_pos h2, if_pos h2]
      · rw [if_neg h2, if_neg h2]
        exact ih

theorem lookupP_eraseFile (fs : Fs) (p q : FsPath) :
    lookupP (fs.eraseFile p).files q = if q = p then none else lookupP fs.files q := by
  by_cases hqp : q = p
  · subst hqp
    rw [if_pos rfl]
    exact lookupP_filter_self q fs.files
  · rw [if_neg hqp]
    exact lookupP_filter_ne p q hqp fs.files

theorem lookupP_setFile (fs : Fs) (p q : FsPath) (fi : FileInfo) :
    lookupP (fs.setFile p fi).files q = if q = p then some fi else lookupP fs.files q := by
  show lookupP ((p, fi) :: (fs.eraseFile p).files) q = _
  simp only [lookupP]
  by_cases hqp : q = p
  · rw [if_pos hqp.symm, if_pos hqp]
  · rw [if_neg (fun h => hqp h.symm), if_neg hqp, lookupP_eraseFile, if_neg hqp]

theorem dirs_eraseFile (fs : Fs) (p : FsPath) : (fs.eraseFile p).dirs = fs.dirs := rfl

theorem dirs_setFile (fs : Fs) (p : FsPath) (fi : FileInfo) :
    (fs.setFile p fi).dirs = fs.dirs := rfl

theorem mem_addDirs (d : FsPath) :
    ∀ (qs ds : List FsPath), d ∈ addDirs ds qs ↔ d ∈ ds ∨ d ∈ qs := by
  intro qs
  induction qs with
  | nil => simp [addDirs]
  | cons q qs ih =>
    intro ds
    by_cases hq : q ∈ ds
    · simp only [addDirs, if_pos hq, ih, List.mem_cons]
      constructor
      · tauto
      · rintro (h | rfl | h) <;> tauto
    · simp only [addDirs, if_neg hq, ih, List.mem_append, List.mem_cons,
        List.mem_singleton]
      tauto

theorem addDirs_eq_self (ds : List FsPath) :
    ∀ qs : List FsPath, (∀ q ∈ qs, q ∈ ds) → addDirs ds qs = ds := by
  intro qs
  induction qs with
  | nil => intro _; rfl
  | cons q qs ih =>
    intro h
    simp only [addDirs, if_pos (h q (by simp))]
    exact ih fun x hx => h x (by simp [hx])

theorem mkdirP_eq_some_iff (fs fs' : Fs) (p : FsPath) :
    fs.mkdirP p = some fs' ↔
      ((∀ q ∈ ancestorsOf p, lookupP fs.files q = none) ∧
        fs' = { fs with dirs := addDirs fs.dirs (ancestorsOf p) }) := by
  unfold Fs.mkdirP
  by_cases h : (ancestorsOf p).any (fun q => (lookupP fs.files q).isSome) = true
  · rw [if_pos h]
    simp only [List.any_eq_true] at h
    obtain ⟨q, hq, hv⟩ := h
    constructor
    · intro hfalse; cases hfalse
    · rintro ⟨hall, -⟩
      rw [hall q hq] at hv
      cases hv
  · rw [if_neg h]
    simp only [List.any_eq_true] at h
    constructor
    · intro he
      refine ⟨fun q hq => ?_, (Option.some_inj.mp he).symm⟩
      cases hx : lookupP fs.files q with
      | none => rfl
      | some v => exact absurd ⟨q, hq, by simp [hx]⟩ h
    · rintro ⟨-, he⟩
      rw [he]

theorem mkdirP_files (fs fs' : Fs) (p : FsPath) (h : fs.mkdirP p = some fs') :
    fs'.files = fs.files := by
  rw [mkdirP_eq_some_iff] at h; rw [h.2]

theorem mkdirP_dirs (fs fs' : Fs) (p : FsPath) (h : fs.mkdirP p = some fs') (d : FsPath) :
    d ∈ fs'.dirs ↔ d ∈ fs.dirs ∨ d ∈ ancestorsOf p := by
  rw [mkdirP_eq_some_iff] at h
  rw [h.2]
  exact mem_addDirs d _ _

theorem mem_ancestorsOf (p q : FsPath) :
    q ∈ ancestorsOf p ↔ ∃ k, k < p.length ∧ q = p.take (k + 1) := by
  simp [ancestorsOf, eq_comm]

theorem length_of_mem_ancestorsOf (p q : FsPath) (h : q ∈ ancestorsOf p) :
    q.length ≤ p.length := by
  rw [mem_ancestorsOf] at h
  obtain ⟨k, -, rfl⟩ := h
  simp

theorem shutilMove_not_dir (fs : Fs) (src dst : FsPath) (fi : FileInfo)
    (hsrc : lookupP fs.files src = some fi) (hdst : ¬ fs.IsDir dst) :
    fs.shutilMove src dst = some ((fs.eraseFile src).setFile dst fi) := by
  unfold Fs.shutilMove
  rw [hsrc]
  simp [hdst]

theorem PathExists_mkdirP (fs fs' : Fs) (p q : FsPath) (h : fs.mkdirP p = some fs') :
    fs'.PathExists q ↔ fs.PathExists q ∨ q ∈ ancestorsOf p := by
  unfold Fs.PathExists Fs.IsFile Fs.IsDir
  rw [mkdirP_files _ _ _ h]
  constructor
  · rintro (hf | hd)
    · exact Or.inl (Or.inl hf)
    · rcases (mkdirP_dirs _ _ _ h q).mp hd with hd' | ha
      · exact Or.inl (Or.inr hd')
      · exact Or.inr ha
  · rintro ((hf | hd) | ha)
    · exact Or.inl hf
    · exact Or.inr ((mkdirP_dirs _ _ _ h q).mpr (Or.inl hd))
    · exact Or.inr ((mkdirP_dirs _ _ _ h q).mpr (Or.inr ha))

/-- The while loop of safe_move returns the first free candidate at or
after the one it starts from. -/
theorem findFreeLoop_spec (fs : Fs) (dest f : FsPath) :
    ∀ (fuel k : Nat),
      findFreeLoop fs dest (nthCand dest k) (k + 1) fuel = some f →
      ∃ n, k ≤ n ∧ f = nthCand dest n ∧ ¬ fs.PathExists f ∧
        ∀ j, k ≤ j → j < n → fs.PathExists (nthCand dest j) := by
  intro fuel
  induction fuel with
  | zero => intro k h; cases h
  | succ fuel ih =>
    intro k h
    simp only [findFreeLoop] at h
    by_cases hex : fs.PathExists (nthCand dest k)
    · rw [if_pos hex] at h
      have hcand : withName dest (candName (lastName dest) (k + 1)) = nthCand dest (k + 1) := by
        simp [nthCand]
      rw [hcand] at h
      obtain ⟨n, hkn, hf, hfree, hocc⟩ := ih (k + 1) h
      refine ⟨n, by omega, hf, hfree, fun j hj1 hj2 => ?_⟩
      rcases Nat.eq_or_lt_of_le hj1 with rfl | hlt
      · exact hex
      · exact hocc j hlt hj2
    · rw [if_neg hex] at h
      have hf : f = nthCand dest k := (Option.some_inj.mp h).symm
      refine ⟨k, le_refl k, hf, ?_, fun j hj1 hj2 => by omega⟩
      rwa [hf]

/-! ## The classifier (claim C8) -/

theorem findCat_of_mem (s cat : String) (exts : List String)
    (hmem : (cat, exts) ∈ CATEGORIES) (hs : s ∈ exts) :
    findCat s CATEGORIES = some cat := by
  fin_cases hmem <;> fin_cases hs <;> rfl

theorem findCat_eq_none (s : String) :
    ∀ L : List (String × List String), (∀ ce ∈ L, s ∉ ce.2) → findCat s L = none := by
  intro L
  induction L with
  | nil => intro _; rfl
  | cons e rest ih =>
    intro h
    obtain ⟨c, exts⟩ := e
    simp only [findCat]
    rw [if_neg (h (c, exts) (by simp))]
    exact ih fun ce hce => h ce (by simp [hce])

/-- Claim C8: for every extension, compared case-insensitively, the
classifier returns exactly the category whose fixed extension set contains
it, and the uncategorized marker (none) when no category does; the caller
maps the marker to the fallback folder "Other".  The classifier is a total
function with no failure outcome. -/
theorem C8_classifier (ext cat : String) :
    ((∃ exts, (cat, exts) ∈ CATEGORIES ∧ lowerStr ext ∈ exts) →
      whichCategory ext = some cat) ∧
    ((∀ ce ∈ CATEGORIES, lowerStr ext ∉ ce.2) → whichCategory ext = none) ∧
    (∀ (cfg : Config) (fi : FileInfo) (name : String),
      whichCategory (pathSuffix name) = none →
      targetParentFor cfg fi name =
        (if cfg.byDate then destRoot cfg ++ ["Other", dateBucket fi.ym]
         else destRoot cfg ++ ["Other"])) := by
  refine ⟨?_, ?_, ?_⟩
  · rintro ⟨exts, hmem, hs⟩
    exact findCat_of_mem _ cat exts hmem hs
  · intro h
    exact findCat_eq_none _ CATEGORIES h
  · intro cfg fi name h
    unfold targetParentFor
    rw [h]
    rfl

/-- Claim C8 witness: the theorem applied at concrete extensions. -/
theorem C8_classifier_witness :
    whichCategory ".PNG" = some "Images" ∧ whichCategory ".xyz" = none := by
  constructor
  · exact (C8_classifier ".PNG" "Images").1
      ⟨[".png", ".jpg", ".jpeg", ".gif", ".bmp", ".svg", ".webp"], by decide, by decide⟩
  · exact (C8_classifier ".xyz" "Images").2.1 (by decide)

/-! ## Dry-run behaviour (claim C2) -/

theorem safeMove_dry_eq (fs : Fs) (src dest : FsPath) :
    safeMove fs src dest true =
      (fs.mkdirP dest.dropLast).map (fun fs1 => (fs1, none)) := by
  unfold safeMove
  cases h : fs.mkdirP dest.dropLast <;> simp

/-- One dry-run step never changes the files and appends at most one
record: an unexecuted one whose destination is the candidate path. -/
theorem stepItem_dry (cfg : Config) (hdry : cfg.dryRun = true)
    (fs : Fs) (mvs : List MoveRec) (name : String) (fs2 : Fs) (mvs2 : List MoveRec)
    (h : stepItem cfg (fs, mvs) name = some (fs2, mvs2)) :
    fs2.files = fs.files ∧
    (mvs2 = mvs ∨ ∃ fi, lookupP fs.files (cfg.source ++ [name]) = some fi ∧
      mvs2 = mvs ++ [⟨cfg.source ++ [name], targetParentFor cfg fi name ++ [name], true⟩]) := by
  simp only [stepItem] at h
  by_cases hdir : fs.IsDir (cfg.source ++ [name])
  · rw [if_pos hdir] at h
    simp only [Option.some_inj, Prod.mk.injEq] at h
    obtain ⟨rfl, rfl⟩ := h
    exact ⟨rfl, Or.inl rfl⟩
  · rw [if_neg hdir] at h
    cases hlook : lookupP fs.files (cfg.source ++ [name]) with
    | none => rw [hlook] at h; cases h
    | some fi =>
      rw [hlook] at h
      simp only [] at h
      by_cases hsize : fi.size < cfg.minSizeKb * 1024
      · rw [if_pos hsize] at h
        simp only [Option.some_inj, Prod.mk.injEq] at h
        obtain ⟨rfl, rfl⟩ := h
        exact ⟨rfl, Or.inl rfl⟩
      · rw [if_neg hsize] at h
        cases hmk : fs.mkdirP (targetParentFor cfg fi name) with
        | none => rw [hmk] at h; cases h
        | some fs1 =>
          rw [hmk] at h
          simp only [] at h
          rw [hdry, safeMove_dry_eq] at h
          have hdl : (targetParentFor cfg fi name ++ [name]).dropLast =
              targetParentFor cfg fi name := by simp
          rw [hdl] at h
          cases hmk2 : fs1.mkdirP (targetParentFor cfg fi name) with
          | none => rw [hmk2] at h; simp only [Option.map_none'] at h; cases h
          | some fs1' =>
            rw [hmk2] at h
            simp only [Option.map_some'] at h
            simp only [Option.some_inj, Prod.mk.injEq] at h
            obtain ⟨rfl, rfl⟩ := h
            refine ⟨?_, Or.inr ⟨fi, rfl, rfl⟩⟩
            rw [mkdirP_files _ _ _ hmk2, mkdirP_files _ _ _ hmk]

/-- A dry run leaves the files of the filesystem untouched, and each record
it accumulates is an unexecuted one with the candidate destination. -/
theorem runLoop_dry (cfg : Config) (hdry : cfg.dryRun = true) :
    ∀ (es : List String) (fs : Fs) (mvs : List MoveRec) (fs' : Fs) (mvs' : List MoveRec),
      runLoop cfg (fs, mvs) es = some (fs', mvs') →
      fs'.files = fs.files ∧
      ∃ news, mvs' = mvs ++ news ∧
        ∀ m ∈ news, m.dryRunFlag = true ∧
          ∃ name fi, m.sourcePath = cfg.source ++ [name] ∧
            lookupP fs.files m.sourcePath = some fi ∧
            m.destPath = targetParentFor cfg fi name ++ [name] := by
  intro es
  induction es with
  | nil =>
    intro fs mvs fs' mvs' h
    simp only [runLoop, Option.some_inj, Prod.mk.injEq] at h
    obtain ⟨rfl, rfl⟩ := h
    exact ⟨rfl, [], by simp⟩
  | cons e es ih =>
    intro fs mvs fs' mvs' h
    simp only [runLoop] at h
    cases hstep : stepItem cfg (fs, mvs) e with
    | none => rw [hstep] at h; cases h
    | some st' =>
      rw [hstep] at h
      obtain ⟨fsm, mvsm⟩ := st'
      obtain ⟨hfiles, hrec⟩ := stepItem_dry cfg hdry fs mvs e fsm mvsm hstep
      obtain ⟨hfiles', news, hmvs', hnews⟩ := ih fsm mvsm fs' mvs' h
      rw [hfiles] at hfiles'
      refine ⟨hfiles', ?_⟩
      rcases hrec with rfl | ⟨fi, hlook, rfl⟩
      · exact ⟨news, hmvs', fun m hm => by
          have := hnews m hm
          rwa [hfiles] at this⟩
      · refine ⟨⟨cfg.source ++ [e], targetParentFor cfg fi e ++ [e], true⟩ :: news, ?_, ?_⟩
        · rw [hmvs', List.append_assoc]
          rfl
        · intro m hm
          rcases List.mem_cons.mp hm with rfl | hm'
          · exact ⟨rfl, e, fi, rfl, hlook, rfl⟩
          · have := hnews m hm'
            rwa [hfiles] at this

/-- Claim C2 counterexample: a dry run over a source holding a single
image does mutate the filesystem — the category directory is created (the
mkdir calls at lines 65 and 115 run before the dry-run test). -/
theorem C2_counterexample :
    runOrganize ⟨[(["s", "a.png"], ⟨.blob 1, 5, (2024, 3)⟩)], [["s"]]⟩
        ⟨["s"], none, true, false, 0⟩ 0 ["a.png"] =
      .done ⟨[(["s", "a.png"], ⟨.blob 1, 5, (2024, 3)⟩)], [["s"], ["s", "Images"]]⟩
        [⟨["s", "a.png"], ["s", "Images", "a.png"], true⟩] ∧
    (⟨[(["s", "a.png"], ⟨.blob 1, 5, (2024, 3)⟩)], [["s"], ["s", "Images"]]⟩ : Fs) ≠
      ⟨[(["s", "a.png"], ⟨.blob 1, 5, (2024, 3)⟩)], [["s"]]⟩ := by
  constructor
  · rfl
  · decide

/-- Claim C2 (amended): a dry run does create the target category
directories, but it relocates no file and never writes or creates the
ledger — the filesystem's files component is exactly unchanged — and every
record it emits is marked unexecuted with the candidate (non-deduplicated)
destination path. -/
theorem C2_dry_run (fs fs' : Fs) (cfg : Config) (ts : Nat) (entries : List String)
    (mvs : List MoveRec) (hdry : cfg.dryRun = true)
    (hrun : runOrganize fs cfg ts entries = .done fs' mvs) :
    fs'.files = fs.files ∧
    ∀ m ∈ mvs, m.dryRunFlag = true ∧
      ∃ name fi, m.sourcePath = cfg.source ++ [name] ∧
        lookupP fs.files m.sourcePath = some fi ∧
        m.destPath = targetParentFor cfg fi name ++ [name] := by
  unfold runOrganize at hrun
  by_cases hsrc : fs.IsDir cfg.source
  · rw [if_neg (by simpa using hsrc)] at hrun
    cases hloop : runLoop cfg (fs, []) entries with
    | none => rw [hloop] at hrun; cases hrun
    | some st =>
      rw [hloop] at hrun
      obtain ⟨fs1, moves⟩ := st
      rw [hdry] at hrun
      simp only [if_pos rfl] at hrun
      cases hrun
      obtain ⟨hfiles, news, hmvs, hnews⟩ := runLoop_dry cfg hdry entries fs [] fs' mvs hloop
      simp only [List.nil_append] at hmvs
      subst hmvs
      exact ⟨hfiles, hnews⟩
  · rw [if_pos (by simpa using hsrc)] at hrun
    cases hrun

/-- Claim C2 witness: the amended dry-run theorem applied to a concrete
run. -/
theorem C2_dry_run_witness :
    (⟨[(["s", "a.png"], ⟨.blob 1, 5, (2024, 3)⟩)], [["s"], ["s", "Images"]]⟩ : Fs).files =
      (⟨[(["s", "a.png"], ⟨.blob 1, 5, (2024, 3)⟩)], [["s"]]⟩ : Fs).files ∧
    ∀ m ∈ [(⟨["s", "a.png"], ["s", "Images", "a.png"], true⟩ : MoveRec)],
      m.dryRunFlag = true ∧
      ∃ name fi, m.sourcePath = (⟨["s"], none, true, false, 0⟩ : Config).source ++ [name] ∧
        lookupP (⟨[(["s", "a.png"], ⟨.blob 1, 5, (2024, 3)⟩)], [["s"]]⟩ : Fs).files m.sourcePath = some fi ∧
        m.destPath = targetParentFor ⟨["s"], none, true, false, 0⟩ fi name ++ [name] :=
  C2_dry_run ⟨[(["s", "a.png"], ⟨.blob 1, 5, (2024, 3)⟩)], [["s"]]⟩
    ⟨[(["s", "a.png"], ⟨.blob 1, 5, (2024, 3)⟩)], [["s"], ["s", "Images"]]⟩
    ⟨["s"], none, true, false, 0⟩ 0 ["a.png"]
    [⟨["s", "a.png"], ["s", "Images", "a.png"], true⟩] rfl (by rfl)

/-! ## Undo failure modes (claims C5, C7, C10, C4) -/

theorem runUndo_absent (fs : Fs) (source : FsPath)
    (h : lookupP fs.files (source ++ [METADATA_FILE]) = none)
    (hd : ¬ fs.IsDir (source ++ [METADATA_FILE])) :
    runUndo fs source = (.noHistory, fs) := by
  simp only [runUndo]
  rw [h]
  simp [hd]

theorem runUndo_blob (fs : Fs) (source : FsPath) (fi : FileInfo) (b : Nat)
    (h : lookupP fs.files (source ++ [METADATA_FILE]) = some fi)
    (hb : fi.data = .blob b) :
    runUndo fs source = (.crashed, fs) := by
  simp only [runUndo]
  rw [h]
  simp only []
  rw [hb]

theorem runUndo_jrun (fs : Fs) (source : FsPath) (fi : FileInfo) (r : RunRecord)
    (h : lookupP fs.files (source ++ [METADATA_FILE]) = some fi)
    (hb : fi.data = .jrun r) :
    runUndo fs source = (.corrupt, fs) := by
  simp only [runUndo]
  rw [h]
  simp only []
  rw [hb]

theorem runUndo_jlist_nil (fs : Fs) (source : FsPath) (fi : FileInfo)
    (h : lookupP fs.files (source ++ [METADATA_FILE]) = some fi)
    (hb : fi.data = .jlist []) :
    runUndo fs source = (.corrupt, fs) := by
  simp only [runUndo]
  rw [h]
  simp only []
  rw [hb]

/-- Claim C5 counterexample: on a ledger whose content is not parseable
JSON, run_undo does not report the corrupt/empty-history condition — the
uncaught json.loads exception crashes the process (line 153 has no
try/except), so the claimed graceful abort fails at this input. -/
theorem C5_counterexample :
    runUndo ⟨[(["s", ".organize_history.json"], ⟨.blob 0, 1, (2024, 1)⟩)], [["s"]]⟩ ["s"] =
      (.crashed, ⟨[(["s", ".organize_history.json"], ⟨.blob 0, 1, (2024, 1)⟩)], [["s"]]⟩) ∧
    UndoResult.crashed ≠ UndoResult.corrupt := by
  exact ⟨rfl, by decide⟩

/-- Claim C5 (amended): undo fails with the no-history condition when the
ledger file is absent and with the corrupt/empty condition when its content
parses as JSON but is not a non-empty list; content that is not parseable
JSON instead raises an uncaught exception (a crash, not a graceful report).
In every one of these cases the filesystem, the ledger file included, is
left exactly unchanged. -/
theorem C5_undo_failures (fs : Fs) (source : FsPath) (fi : FileInfo) :
    ((lookupP fs.files (source ++ [METADATA_FILE]) = none ∧
        ¬ fs.IsDir (source ++ [METADATA_FILE])) →
      runUndo fs source = (.noHistory, fs)) ∧
    ((lookupP fs.files (source ++ [METADATA_FILE]) = some fi ∧ (∃ r, fi.data = .jrun r)) →
      runUndo fs source = (.corrupt, fs)) ∧
    ((lookupP fs.files (source ++ [METADATA_FILE]) = some fi ∧ fi.data = .jlist []) →
      runUndo fs source = (.corrupt, fs)) ∧
    ((lookupP fs.files (source ++ [METADATA_FILE]) = some fi ∧ (∃ b, fi.data = .blob b)) →
      runUndo fs source = (.crashed, fs)) := by
  refine ⟨?_, ?_, ?_, ?_⟩
  · rintro ⟨h, hd⟩; exact runUndo_absent fs source h hd
  · rintro ⟨h, r, hb⟩; exact runUndo_jrun fs source fi r h hb
  · rintro ⟨h, hb⟩; exact runUndo_jlist_nil fs source fi h hb
  · rintro ⟨h, b, hb⟩; exact runUndo_blob fs source fi b h hb

/-- Claim C5 witness: each failure mode exercised at a concrete state. -/
theorem C5_undo_failures_witness :
    runUndo ⟨[], [["s"]]⟩ ["s"] = (.noHistory, ⟨[], [["s"]]⟩) ∧
    runUndo ⟨[(["s", ".organize_history.json"], ⟨.jrun ⟨0, []⟩, 1, (2024, 1)⟩)], [["s"]]⟩ ["s"] =
      (.corrupt, ⟨[(["s", ".organize_history.json"], ⟨.jrun ⟨0, []⟩, 1, (2024, 1)⟩)], [["s"]]⟩) ∧
    runUndo ⟨[(["s", ".organize_history.json"], ⟨.jlist [], 1, (2024, 1)⟩)], [["s"]]⟩ ["s"] =
      (.corrupt, ⟨[(["s", ".organize_history.json"], ⟨.jlist [], 1, (2024, 1)⟩)], [["s"]]⟩) ∧
    runUndo ⟨[(["s", ".organize_history.json"], ⟨.blob 3, 1, (2024, 1)⟩)], [["s"]]⟩ ["s"] =
      (.crashed, ⟨[(["s", ".organize_history.json"], ⟨.blob 3, 1, (2024, 1)⟩)], [["s"]]⟩) := by
  refine ⟨?_, ?_, ?_, ?_⟩
  · exact (C5_undo_failures ⟨[], [["s"]]⟩ ["s"] ⟨.blob 0, 0, (0, 0)⟩).1 ⟨rfl, by decide⟩
  · exact (C5_undo_failures _ ["s"] ⟨.jrun ⟨0, []⟩, 1, (2024, 1)⟩).2.1 ⟨rfl, ⟨0, []⟩, rfl⟩
  · exact (C5_undo_failures _ ["s"] ⟨.jlist [], 1, (2024, 1)⟩).2.2.1 ⟨rfl, rfl⟩
  · exact (C5_undo_failures _ ["s"] ⟨.blob 3, 1, (2024, 1)⟩).2.2.2 ⟨rfl, 3, rfl⟩

/-- Claim C7 counterexample: undo_last does not accept the legacy
single-record ledger shape — a ledger holding one JSON run-record object is
reported as corrupt/empty history and nothing is undone. -/
theorem C7_counterexample :
    runUndo ⟨[(["s", ".organize_history.json"],
        ⟨.jrun ⟨5, [⟨["s", "a.png"], ["s", "Images", "a.png"], false⟩]⟩, 1, (2024, 1)⟩)],
      [["s"]]⟩ ["s"] =
      (.corrupt, ⟨[(["s", ".organize_history.json"],
        ⟨.jrun ⟨5, [⟨["s", "a.png"], ["s", "Images", "a.png"], false⟩]⟩, 1, (2024, 1)⟩)],
      [["s"]]⟩) ∧
    UndoResult.corrupt ≠ UndoResult.ok := by
  exact ⟨rfl, by decide⟩

/-- Claim C10: the undo restoration performs no collision check.  When the
recorded destination still holds a file, run_undo moves it back onto the
recorded source path unconditionally, overwriting whatever file sits there
now — its content is replaced by the moved one — unlike the forward
safe_move, which suffixes the name until the path is free. -/
theorem C10_undo_overwrites (fs fs1 : Fs) (m : MoveRec) (c cOld : FileInfo)
    (hne : m.sourcePath ≠ [])
    (hdst : lookupP fs.files m.destPath = some c)
    (_hold : lookupP fs.files m.sourcePath = some cOld)
    (hmk : fs.mkdirP m.sourcePath.dropLast = some fs1)
    (hnd : ¬ fs.IsDir m.sourcePath) :
    restoreStep fs m = some ((fs1.eraseFile m.destPath).setFile m.sourcePath c) ∧
    lookupP ((fs1.eraseFile m.destPath).setFile m.sourcePath c).files m.sourcePath = some c := by
  have hex : fs.PathExists m.destPath := Or.inl (by simp [Fs.IsFile, hdst])
  have hnd1 : ¬ fs1.IsDir m.sourcePath := by
    intro hmem
    rcases (mkdirP_dirs _ _ _ hmk m.sourcePath).mp hmem with hd | ha
    · exact hnd hd
    · have := length_of_mem_ancestorsOf _ _ ha
      have hlen : m.sourcePath.dropLast.length < m.sourcePath.length := by
        rw [List.length_dropLast]
        cases hsp : m.sourcePath with
        | nil => exact absurd hsp hne
        | cons a l => simp
      omega
  have hsrc1 : lookupP fs1.files m.destPath = some c := by
    rw [mkdirP_files _ _ _ hmk]; exact hdst
  constructor
  · unfold restoreStep
    rw [if_pos hex, hmk]
    exact shutilMove_not_dir fs1 m.destPath m.sourcePath c hsrc1 hnd1
  · rw [lookupP_setFile]
    simp

/-- Claim C10 witness: a concrete undo step that clobbers the file now at
the source path — afterwards the source path holds the moved-back content,
not the blob 9 file that sat there. -/
theorem C10_undo_overwrites_witness :
    lookupP (((Fs.mk [(["s", "Images", "a.png"], ⟨.blob 1, 5, (2024, 3)⟩),
          (["s", "a.png"], ⟨.blob 9, 7, (2025, 1)⟩)] [["s"], ["s", "Images"]]).eraseFile
            ["s", "Images", "a.png"]).setFile ["s", "a.png"] ⟨.blob 1, 5, (2024, 3)⟩).files
        ["s", "a.png"] =
      some ⟨.blob 1, 5, (2024, 3)⟩ := by
  have hmk : (Fs.mk [(["s", "Images", "a.png"], ⟨.blob 1, 5, (2024, 3)⟩),
      (["s", "a.png"], ⟨.blob 9, 7, (2025, 1)⟩)] [["s"], ["s", "Images"]]).mkdirP
        (["s", "a.png"] : FsPath).dropLast =
      some (Fs.mk [(["s", "Images", "a.png"], ⟨.blob 1, 5, (2024, 3)⟩),
        (["s", "a.png"], ⟨.blob 9, 7, (2025, 1)⟩)] [["s"], ["s", "Images"]]) := by rfl
  exact (C10_undo_overwrites
    (Fs.mk [(["s", "Images", "a.png"], ⟨.blob 1, 5, (2024, 3)⟩),
      (["s", "a.png"], ⟨.blob 9, 7, (2025, 1)⟩)] [["s"], ["s", "Images"]])
    (Fs.mk [(["s", "Images", "a.png"], ⟨.blob 1, 5, (2024, 3)⟩),
      (["s", "a.png"], ⟨.blob 9, 7, (2025, 1)⟩)] [["s"], ["s", "Images"]])
    ⟨["s", "a.png"], ["s", "Images", "a.png"], false⟩
    ⟨.blob 1, 5, (2024, 3)⟩ ⟨.blob 9, 7, (2025, 1)⟩ (by decide) rfl rfl hmk (by decide)).2

theorem replayRev_all_missing (L : List MoveRec) :
    ∀ fs : Fs, (∀ m ∈ L, ¬ fs.PathExists m.destPath) → replayRev fs L = .ok fs := by
  induction L with
  | nil => intro fs _; rfl
  | cons m ms ih =>
    intro fs h
    have hm : ¬ fs.PathExists m.destPath := h m (by simp)
    have hstep : restoreStep fs m = some fs := by
      simp only [restoreStep]
      rw [if_neg hm]
    simp only [replayRev, hstep]
    exact ih fs fun x hx => h x (by simp [hx])

/-- runUndo on a non-empty JSON-list ledger, unfolded to its replay. -/
theorem runUndo_jlist (fs : Fs) (source : FsPath) (fi : FileInfo) (r0 : RunRecord)
    (rs' : List RunRecord)
    (h : lookupP fs.files (source ++ [METADATA_FILE]) = some fi)
    (hb : fi.data = .jlist (r0 :: rs')) :
    runUndo fs source =
      (match replayRev fs ((r0 :: rs').getLast (by simp)).moves.reverse with
        | .error fsx => (.crashed, fsx)
        | .ok fs1 =>
          if fs1.IsDir (source ++ [METADATA_FILE]) then (.crashed, fs1)
          else (.ok, fs1.setFile (source ++ [METADATA_FILE])
            (ledgerInfo (r0 :: rs').dropLast))) := by
  simp only [runUndo]
  rw [h]
  simp only []
  rw [hb]

/-- Claim C4: undo_last removes the last run record and replays its move
records in reverse order relative to how they were recorded; a missing file
at a recorded destination skips only that restoration, leaving the state
untouched and raising nothing, the remaining restorations still run, and
the ledger is rewritten with the popped record removed whenever the undo
completes. -/
theorem C4_undo_replay :
    (∀ (fs fs2 : Fs) (source : FsPath) (fi : FileInfo) (r0 : RunRecord)
        (rs' : List RunRecord),
      lookupP fs.files (source ++ [METADATA_FILE]) = some fi →
      fi.data = .jlist (r0 :: rs') →
      runUndo fs source = (.ok, fs2) →
      lookupP fs2.files (source ++ [METADATA_FILE]) =
        some (ledgerInfo (r0 :: rs').dropLast)) ∧
    (∀ (fs : Fs) (m : MoveRec),
      ¬ fs.PathExists m.destPath → restoreStep fs m = some fs) ∧
    (∀ (fs : Fs) (source : FsPath) (fi : FileInfo) (r0 : RunRecord)
        (rs' : List RunRecord),
      lookupP fs.files (source ++ [METADATA_FILE]) = some fi →
      fi.data = .jlist (r0 :: rs') →
      (∀ m ∈ ((r0 :: rs').getLast (by simp)).moves, ¬ fs.PathExists m.destPath) →
      ¬ fs.IsDir (source ++ [METADATA_FILE]) →
      runUndo fs source =
        (.ok, fs.setFile (source ++ [METADATA_FILE])
          (ledgerInfo (r0 :: rs').dropLast))) ∧
    (∀ (fs : Fs) (ms : List MoveRec) (m : MoveRec),
      replayRev fs (ms ++ [m]).reverse =
        (match restoreStep fs m with
          | none => .error fs
          | some fs' => replayRev fs' ms.reverse)) := by
  refine ⟨?_, ?_, ?_, ?_⟩
  · intro fs fs2 source fi r0 rs' h hb hundo
    rw [runUndo_jlist fs source fi r0 rs' h hb] at hundo
    cases hrep : replayRev fs ((r0 :: rs').getLast (by simp)).moves.reverse with
    | error fsx =>
      rw [hrep] at hundo
      simp only [Prod.mk.injEq] at hundo
      cases hundo.1
    | ok fs1 =>
      rw [hrep] at hundo
      simp only [] at hundo
      by_cases hdir : fs1.IsDir (source ++ [METADATA_FILE])
      · rw [if_pos hdir] at hundo
        simp only [Prod.mk.injEq] at hundo
        cases hundo.1
      · rw [if_neg hdir] at hundo
        simp only [Prod.mk.injEq, true_and] at hundo
        rw [← hundo, lookupP_setFile]
        simp
  · intro fs m h
    simp only [restoreStep]
    rw [if_neg h]
  · intro fs source fi r0 rs' h hb hall hnd
    rw [runUndo_jlist fs source fi r0 rs' h hb]
    have hrep : replayRev fs ((r0 :: rs').getLast (by simp)).moves.reverse = .ok fs :=
      replayRev_all_missing _ fs fun m hm =>
        hall m (List.mem_reverse.mp hm)
    rw [hrep]
    simp only []
    rw [if_neg hnd]
  · intro fs ms m
    have hrev : (ms ++ [m]).reverse = m :: ms.reverse := by
      simp
    rw [hrev]
    rfl

/-- Claim C4 witness: the four parts of the theorem applied at concrete
states — a successful undo pops and commits the ledger rewrite, a missing
destination is skipped without failing, an all-missing replay still
commits, and the replay handles the last recorded move first. -/
theorem C4_undo_replay_witness :
    lookupP (Fs.mk [(["s", ".organize_history.json"], ⟨.jlist [], 1, (1970, 1)⟩),
        (["s", "a.png"], ⟨.blob 1, 5, (2024, 3)⟩)] [["s"], ["s", "Images"]]).files
        (["s"] ++ [METADATA_FILE]) = some (ledgerInfo []) ∧
    restoreStep ⟨[], [["s"]]⟩ ⟨["s", "x.txt"], ["s", "Documents", "x.txt"], false⟩ =
      some ⟨[], [["s"]]⟩ ∧
    runUndo ⟨[(["s", ".organize_history.json"],
        ⟨.jlist [⟨9, [⟨["s", "gone.png"], ["s", "Images", "gone.png"], false⟩]⟩], 1,
          (1970, 1)⟩)], [["s"]]⟩ ["s"] =
      (.ok, (Fs.mk [(["s", ".organize_history.json"],
        ⟨.jlist [⟨9, [⟨["s", "gone.png"], ["s", "Images", "gone.png"], false⟩]⟩], 1,
          (1970, 1)⟩)] [["s"]]).setFile (["s"] ++ [METADATA_FILE]) (ledgerInfo [])) ∧
    replayRev ⟨[], []⟩
        ([⟨["a"], ["b"], false⟩] ++ [⟨["c"], ["d"], false⟩] : List MoveRec).reverse =
      (match restoreStep ⟨[], []⟩ (⟨["c"], ["d"], false⟩ : MoveRec) with
        | none => .error ⟨[], []⟩
        | some fs' => replayRev fs' [(⟨["a"], ["b"], false⟩ : MoveRec)].reverse) := by
  refine ⟨?_, ?_, ?_, ?_⟩
  · exact C4_undo_replay.1
      ⟨[(["s", ".organize_history.json"],
          ⟨.jlist [⟨9, [⟨["s", "a.png"], ["s", "Images", "a.png"], false⟩]⟩], 1, (1970, 1)⟩),
        (["s", "Images", "a.png"], ⟨.blob 1, 5, (2024, 3)⟩)], [["s"], ["s", "Images"]]⟩
      (Fs.mk [(["s", ".organize_history.json"], ⟨.jlist [], 1, (1970, 1)⟩),
        (["s", "a.png"], ⟨.blob 1, 5, (2024, 3)⟩)] [["s"], ["s", "Images"]])
      ["s"] ⟨.jlist [⟨9, [⟨["s", "a.png"], ["s", "Images", "a.png"], false⟩]⟩], 1, (1970, 1)⟩
      ⟨9, [⟨["s", "a.png"], ["s", "Images", "a.png"], false⟩]⟩ [] rfl rfl (by rfl)
  · exact C4_undo_replay.2.1 ⟨[], [["s"]]⟩ ⟨["s", "x.txt"], ["s", "Documents", "x.txt"], false⟩
      (by decide)
  · exact C4_undo_replay.2.2.1
      ⟨[(["s", ".organize_history.json"],
          ⟨.jlist [⟨9, [⟨["s", "gone.png"], ["s", "Images", "gone.png"], false⟩]⟩], 1,
            (1970, 1)⟩)], [["s"]]⟩
      ["s"] ⟨.jlist [⟨9, [⟨["s", "gone.png"], ["s", "Images", "gone.png"], false⟩]⟩], 1, (1970, 1)⟩
      ⟨9, [⟨["s", "gone.png"], ["s", "Images", "gone.png"], false⟩]⟩ [] rfl rfl (by decide)
      (by decide)
  · exact C4_undo_replay.2.2.2 ⟨[], []⟩ [⟨["a"], ["b"], false⟩] ⟨["c"], ["d"], false⟩

/-! ## The misplaced ledger-skip check (claim C3) -/

/-- Claim C3, evaluated at the failing input: a regular file named
.organize_history.json — a prior run's ledger — is not skipped.  The name
test of line 99 sits inside the is_dir branch and never fires for regular
files, so a live run classifies the ledger file by its .json suffix (no
category, so "Other"), physically moves it to Other/.organize_history.json
and records that move, while the spec requires the ledger file to always be
skipped. -/
theorem C3_ledger_file_moved :
    runOrganize
        ⟨[(["s", ".organize_history.json"], ⟨.jlist [⟨0, []⟩], 1, (2024, 1)⟩),
          (["s", "a.png"], ⟨.blob 1, 5, (2024, 3)⟩)], [["s"]]⟩
        ⟨["s"], none, false, false, 0⟩ 9 [".organize_history.json", "a.png"] =
      .done
        ⟨[(["s", ".organize_history.json"],
            ⟨.jlist [⟨9, [⟨["s", ".organize_history.json"],
                ["s", "Other", ".organize_history.json"], false⟩,
              ⟨["s", "a.png"], ["s", "Images", "a.png"], false⟩]⟩], 1, (1970, 1)⟩),
          (["s", "Images", "a.png"], ⟨.blob 1, 5, (2024, 3)⟩),
          (["s", "Other", ".organize_history.json"], ⟨.jlist [⟨0, []⟩], 1, (2024, 1)⟩)],
         [["s"], ["s", "Other"], ["s", "Images"]]⟩
        [⟨["s", ".organize_history.json"], ["s", "Other", ".organize_history.json"], false⟩,
         ⟨["s", "a.png"], ["s", "Images", "a.png"], false⟩] ∧
    (⟨["s", ".organize_history.json"], ["s", "Other", ".organize_history.json"], false⟩ :
        MoveRec) ∈
      [⟨["s", ".organize_history.json"], ["s", "Other", ".organize_history.json"], false⟩,
       ⟨["s", "a.png"], ["s", "Images", "a.png"], false⟩] := by
  exact ⟨rfl, by decide⟩

/-! ## Shape lemmas for the live-run invariant -/

theorem findCat_mem (s : String) :
    ∀ (L : List (String × List String)) (c : String),
      findCat s L = some c → c ∈ L.map Prod.fst := by
  intro L
  induction L with
  | nil => intro c h; cases h
  | cons e rest ih =>
    intro c h
    obtain ⟨c0, exts⟩ := e
    simp only [findCat] at h
    by_cases hs : s ∈ exts
    · rw [if_pos hs] at h
      simp only [Option.some_inj] at h
      subst h
      simp
    · rw [if_neg hs] at h
      simpa using Or.inr (ih c h)

/-- In the default destination configuration, every target directory is
source ++ folder :: r with folder a known folder name and r at most the
date bucket. -/
theorem targetParentFor_shape (cfg : Config) (hdp : cfg.destParent = none)
    (fi : FileInfo) (name : String) :
    ∃ f ∈ folderNames, ∃ r : List String, r.length ≤ 1 ∧
      targetParentFor cfg fi name = cfg.source ++ f :: r := by
  have hroot : destRoot cfg = cfg.source := by
    simp [destRoot, hdp]
  have hfold : (whichCategory (pathSuffix name)).getD "Other" ∈ folderNames := by
    cases hc : whichCategory (pathSuffix name) with
    | none => simp [folderNames]
    | some c =>
      simp only [Option.getD]
      have := findCat_mem (lowerStr (pathSuffix name)) CATEGORIES c hc
      simp [folderNames, this]
  refine ⟨(whichCategory (pathSuffix name)).getD "Other", hfold, ?_⟩
  unfold targetParentFor
  by_cases hbd : cfg.byDate
  · exact ⟨[dateBucket fi.ym], by simp, by rw [if_pos hbd, hroot]⟩
  · exact ⟨[], by simp, by rw [if_neg hbd, hroot]⟩

theorem ancestorsOf_shape (src : FsPath) (f : String) (r : List String)
    (hr : r.length ≤ 1) (q : FsPath) (hq : q ∈ ancestorsOf (src ++ f :: r)) :
    (∃ k, q = src.take (k + 1)) ∨ q = src ++ [f] ∨ (∃ y, q = src ++ [f, y]) := by
  rw [mem_ancestorsOf] at hq
  obtain ⟨k, hk, rfl⟩ := hq
  simp only [List.length_append, List.length_cons] at hk
  by_cases h1 : k + 1 ≤ src.length
  · left
    exact ⟨k, (List.take_append_of_le_length h1).symm ▸ rfl⟩
  · have h2 : k + 1 = src.length + (k + 1 - src.length) := by omega
    rw [h2, List.take_append]
    have h3 : k + 1 - src.length = 1 ∨ k + 1 - src.length = 2 := by omega
    rcases h3 with h3 | h3
    · right; left
      rw [h3]
      simp
    · right; right
      rw [h3]
      cases r with
      | nil =>
        exfalso
        simp only [List.length_nil] at hk
        omega
      | cons y ys =>
        exact ⟨y, by simp⟩

theorem mkdirP_idem (fs fs1 : Fs) (p : FsPath) (h : fs.mkdirP p = some fs1) :
    fs1.mkdirP p = some fs1 := by
  rw [mkdirP_eq_some_iff] at h ⊢
  obtain ⟨hfree, heq⟩ := h
  constructor
  · intro q hq
    rw [heq]
    exact hfree q hq
  · have hsub : ∀ q ∈ ancestorsOf p, q ∈ fs1.dirs := by
      intro q hq
      rw [heq]
      exact (mem_addDirs q _ _).mpr (Or.inr hq)
    rw [addDirs_eq_self _ _ hsub]

theorem append_singleton_inj (src : FsPath) (a b : String) :
    src ++ [a] = src ++ [b] ↔ a = b := by
  constructor
  · intro h
    have := List.append_cancel_left h
    simpa using this
  · intro h; rw [h]

theorem ne_of_length_ne (p q : FsPath) (h : p.length ≠ q.length) : p ≠ q := by
  intro he; rw [he] at h; exact h rfl

/-- Each candidate the collision loop tries keeps the target's parent. -/
theorem nthCand_shape (tp : FsPath) (e : String) (n : Nat) :
    ∃ z, nthCand (tp ++ [e]) n = tp ++ [z] := by
  unfold nthCand
  by_cases hn : n = 0
  · rw [if_pos hn]; exact ⟨e, rfl⟩
  · rw [if_neg hn]
    unfold withName
    exact ⟨candName (lastName (tp ++ [e])) n, by simp⟩

theorem RunInv.mono (fs0 : Fs) (src : FsPath) (P P' : List String) (fs : Fs)
    (mvs : List MoveRec) (hsub : ∀ x ∈ P, x ∈ P') (h : RunInv fs0 src P fs mvs) :
    RunInv fs0 src P' fs mvs := by
  refine ⟨h.live, ?_, h.srcNodup, h.dstNodup, h.dstShape, h.content, h.vacated, h.frame,
    h.dirsGrow, h.dirsChar, h.srcNotDir⟩
  intro m hm
  obtain ⟨name, hn, heq⟩ := h.srcShape m hm
  exact ⟨name, hsub name hn, heq⟩

theorem lookupP_move (fs : Fs) (item finalP q : FsPath) (fi : FileInfo) :
    lookupP ((fs.eraseFile item).setFile finalP fi).files q =
      if q = finalP then some fi
      else if q = item then none
      else lookupP fs.files q := by
  rw [lookupP_setFile, lookupP_eraseFile]

theorem safeMove_live_isSome (fs fs' : Fs) (src dest : FsPath) (o : Option FsPath)
    (hmv : safeMove fs src dest false = some (fs', o)) : ∃ f, o = some f := by
  unfold safeMove at hmv
  cases hmk : fs.mkdirP dest.dropLast with
  | none => rw [hmk] at hmv; cases hmv
  | some fs1 =>
    rw [hmk] at hmv
    simp only [Bool.false_eq_true, if_false] at hmv
    cases hff : findFreeLoop fs1 dest dest 1 (fs1.files.length + fs1.dirs.length + 1) with
    | none => rw [hff] at hmv; cases hmv
    | some fl =>
      rw [hff] at hmv
      simp only [] at hmv
      cases hsm : fs1.shutilMove src fl with
      | none => rw [hsm] at hmv; cases hmv
      | some fs2' =>
        rw [hsm] at hmv
        simp only [Option.some_inj, Prod.mk.injEq] at hmv
        exact ⟨fl, hmv.2.symm⟩

/-- Live safe_move decomposed: the mkdir, the collision walk and the
physical move, with the walk's first-free characterisation. -/
theorem safeMove_live (fs fs' : Fs) (src dest finalP : FsPath)
    (hmv : safeMove fs src dest false = some (fs', some finalP)) :
    ∃ fs1, fs.mkdirP dest.dropLast = some fs1 ∧
      (∃ n, finalP = nthCand dest n ∧ ¬ fs1.PathExists finalP ∧
        ∀ j, j < n → fs1.PathExists (nthCand dest j)) ∧
      fs1.shutilMove src finalP = some fs' := by
  unfold safeMove at hmv
  cases hmk : fs.mkdirP dest.dropLast with
  | none => rw [hmk] at hmv; cases hmv
  | some fs1 =>
    rw [hmk] at hmv
    simp only [Bool.false_eq_true, if_false] at hmv
    cases hff : findFreeLoop fs1 dest dest 1 (fs1.files.length + fs1.dirs.length + 1) with
    | none => rw [hff] at hmv; cases hmv
    | some fl =>
      rw [hff] at hmv
      simp only [] at hmv
      cases hsm : fs1.shutilMove src fl with
      | none => rw [hsm] at hmv; cases hmv
      | some fs2' =>
        rw [hsm] at hmv
        simp only [Option.some_inj, Prod.mk.injEq] at hmv
        obtain ⟨h1, h2⟩ := hmv
        have h0 : nthCand dest 0 = dest := by simp [nthCand]
        have hspec := findFreeLoop_spec fs1 dest fl
          (fs1.files.length + fs1.dirs.length + 1) 0 (by rw [h0]; exact hff)
        obtain ⟨n, -, hfn, hfree, hocc⟩ := hspec
        refine ⟨fs1, rfl, ⟨n, ?_, ?_, fun j hj => hocc j (Nat.zero_le j) hj⟩, ?_⟩
        · rw [← h2]; exact hfn
        · rw [← h2]; exact hfree
        · rw [← h2, ← h1]; exact hsm

/-- One live step in the default destination configuration preserves the
run invariant, extending the processed-entry list. -/
theorem stepItem_inv (cfg : Config) (hdp : cfg.destParent = none)
    (hdry : cfg.dryRun = false) (fs0 : Fs) (P : List String) (fs : Fs)
    (mvs : List MoveRec) (e : String) (fs2 : Fs) (mvs2 : List MoveRec)
    (hinv : RunInv fs0 cfg.source P fs mvs)
    (he : e ∉ P)
    (hstep : stepItem cfg (fs, mvs) e = some (fs2, mvs2)) :
    RunInv fs0 cfg.source (P ++ [e]) fs2 mvs2 := by
  have hmono : ∀ x ∈ P, x ∈ P ++ [e] := fun x hx => by simp [hx]
  simp only [stepItem] at hstep
  by_cases hdir : fs.IsDir (cfg.source ++ [e])
  · rw [if_pos hdir] at hstep
    simp only [Option.some_inj, Prod.mk.injEq] at hstep
    obtain ⟨rfl, rfl⟩ := hstep
    exact RunInv.mono _ _ _ _ _ _ hmono hinv
  · rw [if_neg hdir] at hstep
    cases hlook : lookupP fs.files (cfg.source ++ [e]) with
    | none => rw [hlook] at hstep; cases hstep
    | some fi =>
      rw [hlook] at hstep
      simp only [] at hstep
      by_cases hsize : fi.size < cfg.minSizeKb * 1024
      · rw [if_pos hsize] at hstep
        simp only [Option.some_inj, Prod.mk.injEq] at hstep
        obtain ⟨rfl, rfl⟩ := hstep
        exact RunInv.mono _ _ _ _ _ _ hmono hinv
      · rw [if_neg hsize] at hstep
        cases hmk : fs.mkdirP (targetParentFor cfg fi e) with
        | none => rw [hmk] at hstep; cases hstep
        | some fs1 =>
          rw [hmk] at hstep
          simp only [] at hstep
          rw [hdry] at hstep
          cases hmv : safeMove fs1 (cfg.source ++ [e])
              (targetParentFor cfg fi e ++ [e]) false with
          | none => rw [hmv] at hstep; cases hstep
          | some pr =>
            rw [hmv] at hstep
            obtain ⟨fs2', finOpt⟩ := pr
            obtain ⟨finalP, rfl⟩ := safeMove_live_isSome _ _ _ _ _ hmv
            simp only [Option.some_inj, Prod.mk.injEq] at hstep
            obtain ⟨rfl, rfl⟩ := hstep
            -- decompose the live safe_move
            obtain ⟨fs1b, hmk2, ⟨n, hfn, hfree, -⟩, hsm⟩ :=
              safeMove_live _ _ _ _ _ hmv
            have hdl : (targetParentFor cfg fi e ++ [e]).dropLast =
                targetParentFor cfg fi e := by simp
            rw [hdl, mkdirP_idem fs fs1 _ hmk] at hmk2
            have hfb : fs1 = fs1b := Option.some_inj.mp hmk2
            subst hfb
            -- basic shapes
            obtain ⟨fc, hfc, rr, hrr, htp⟩ := targetParentFor_shape cfg hdp fi e
            obtain ⟨z, hz⟩ := nthCand_shape (targetParentFor cfg fi e) e n
            have hfinal_form : finalP = cfg.source ++ fc :: (rr ++ [z]) := by
              rw [hfn, hz, htp]
              simp
            have hfinlen : finalP.length = cfg.source.length + rr.length + 2 := by
              rw [hfinal_form]
              simp
              omega
            have hfs1files : fs1.files = fs.files := mkdirP_files _ _ _ hmk
            -- the processed item is fresh
            have hitem_src : ∀ m ∈ mvs, (cfg.source ++ [e]) ≠ m.sourcePath := by
              intro m hm hcon
              obtain ⟨nm, hnm, hms⟩ := hinv.srcShape m hm
              rw [hms] at hcon
              exact he (((append_singleton_inj _ _ _).mp hcon) ▸ hnm)
            have hsrc_len : ∀ m ∈ mvs, m.sourcePath.length = cfg.source.length + 1 := by
              intro m hm
              obtain ⟨nm, -, hms⟩ := hinv.srcShape m hm
              rw [hms]; simp
            have hdst_len : ∀ m ∈ mvs, cfg.source.length + 2 ≤ m.destPath.length := by
              intro m hm
              obtain ⟨f', -, r', hr', hd⟩ := hinv.dstShape m hm
              rw [hd]
              have : 1 ≤ r'.length := List.length_pos.mpr hr'
              simp
              omega
            have hitem_dst : ∀ m ∈ mvs, (cfg.source ++ [e]) ≠ m.destPath := by
              intro m hm
              apply ne_of_length_ne
              have := hdst_len m hm
              simp
              omega
            have hlook0 : lookupP fs0.files (cfg.source ++ [e]) = some fi := by
              rw [← hinv.frame _ (fun m hm => ⟨hitem_src m hm, hitem_dst m hm⟩)]
              exact hlook
            -- the chosen final path is fresh
            have hfin_dst : ∀ m ∈ mvs, finalP ≠ m.destPath := by
              intro m hm hcon
              apply hfree
              left
              show (lookupP fs1.files finalP).isSome = true
              rw [hfs1files, hcon, (hinv.content m hm).1]
              exact (hinv.content m hm).2
            have hfin_src : ∀ m ∈ mvs, finalP ≠ m.sourcePath := by
              intro m hm
              apply ne_of_length_ne
              rw [hfinlen, hsrc_len m hm]
              omega
            have hfin_item : finalP ≠ cfg.source ++ [e] := by
              apply ne_of_length_ne
              rw [hfinlen]
              simp
              omega
            -- resolve the physical move
            have hnd1 : ¬ fs1.IsDir finalP := fun hd => hfree (Or.inr hd)
            have hlook1 : lookupP fs1.files (cfg.source ++ [e]) = some fi := by
              rw [hfs1files]; exact hlook
            rw [shutilMove_not_dir fs1 _ _ fi hlook1 hnd1] at hsm
            obtain rfl := Option.some_inj.mp hsm
            -- lookups in the new state
            have hlk : ∀ q, lookupP ((fs1.eraseFile (cfg.source ++ [e])).setFile finalP
                fi).files q =
                if q = finalP then some fi
                else if q = cfg.source ++ [e] then none
                else lookupP fs.files q := by
              intro q
              rw [lookupP_move, hfs1files]
            -- build the invariant
            refine ⟨?_, ?_, ?_, ?_, ?_, ?_, ?_, ?_, ?_, ?_, ?_⟩
            · intro m hm
              rcases List.mem_append.mp hm with hm | hm
              · exact hinv.live m hm
              · simp only [List.mem_singleton] at hm
                rw [hm]
            · intro m hm
              rcases List.mem_append.mp hm with hm | hm
              · obtain ⟨nm, hnm, hms⟩ := hinv.srcShape m hm
                exact ⟨nm, hmono nm hnm, hms⟩
              · simp only [List.mem_singleton] at hm
                exact ⟨e, by simp, by rw [hm]⟩
            · rw [List.map_append, List.nodup_append]
              refine ⟨hinv.srcNodup, by simp, ?_⟩
              intro a ha hb
              simp only [List.map_cons, List.map_nil, List.mem_singleton] at hb
              obtain ⟨m, hm, hma⟩ := List.mem_map.mp ha
              exact hitem_src m hm (by rw [hma, hb])
            · rw [List.map_append, List.nodup_append]
              refine ⟨hinv.dstNodup, by simp, ?_⟩
              intro a ha hb
              simp only [List.map_cons, List.map_nil, List.mem_singleton] at hb
              obtain ⟨m, hm, hma⟩ := List.mem_map.mp ha
              exact hfin_dst m hm (by rw [hma, hb])
            · intro m hm
              rcases List.mem_append.mp hm with hm | hm
              · exact hinv.dstShape m hm
              · simp only [List.mem_singleton] at hm
                refine ⟨fc, hfc, rr ++ [z], by simp, ?_⟩
                rw [hm]
                exact hfinal_form
            · intro m hm
              rcases List.mem_append.mp hm with hm | hm
              · constructor
                · rw [hlk, if_neg (fun h => hfin_dst m hm h.symm),
                    if_neg (fun h => hitem_dst m hm h.symm)]
                  exact (hinv.content m hm).1
                · exact (hinv.content m hm).2
              · simp only [List.mem_singleton] at hm
                rw [hm]
                constructor
                · rw [hlk, if_pos rfl]
                  exact hlook0.symm
                · rw [hlook0]; rfl
            · intro m hm
              rcases List.mem_append.mp hm with hm | hm
              · rw [hlk, if_neg (fun h => hfin_src m hm h.symm),
                  if_neg (fun h => hitem_src m hm h.symm)]
                exact hinv.vacated m hm
              · simp only [List.mem_singleton] at hm
                rw [hm]
                rw [hlk, if_neg (fun h => hfin_item h.symm), if_pos rfl]
            · intro p hp
              have hpold : ∀ m ∈ mvs, p ≠ m.sourcePath ∧ p ≠ m.destPath :=
                fun m hm => hp m (List.mem_append.mpr (Or.inl hm))
              have hpnew := hp ⟨cfg.source ++ [e], finalP, false⟩
                (List.mem_append.mpr (Or.inr (by simp)))
              rw [hlk, if_neg hpnew.2, if_neg hpnew.1]
              exact hinv.frame p hpold
            · intro d hd
              have : d ∈ fs1.dirs := (mkdirP_dirs _ _ _ hmk d).mpr
                (Or.inl (hinv.dirsGrow d hd))
              exact this
            · intro d hd
              show d ∈ fs0.dirs ∨ _
              have hd1 : d ∈ fs1.dirs := hd
              rcases (mkdirP_dirs _ _ _ hmk d).mp hd1 with hdf | hda
              · exact hinv.dirsChar d hdf
              · rw [htp] at hda
                rcases ancestorsOf_shape cfg.source fc rr hrr d hda with h | h | h
                · exact Or.inr (Or.inl h)
                · exact Or.inr (Or.inr ⟨fc, hfc, Or.inl h⟩)
                · obtain ⟨y, hy⟩ := h
                  exact Or.inr (Or.inr ⟨fc, hfc, Or.inr ⟨y, hy⟩⟩)
            · intro m hm
              rcases List.mem_append.mp hm with hm | hm
              · exact hinv.srcNotDir m hm
              · simp only [List.mem_singleton] at hm
                rw [hm]
                intro hcon
                exact hdir (hinv.dirsGrow _ hcon)

theorem runLoop_inv (cfg : Config) (hdp : cfg.destParent = none)
    (hdry : cfg.dryRun = false) (fs0 : Fs) :
    ∀ (es P : List String) (fs : Fs) (mvs : List MoveRec) (fs' : Fs)
      (mvs' : List MoveRec),
      RunInv fs0 cfg.source P fs mvs →
      (P ++ es).Nodup →
      runLoop cfg (fs, mvs) es = some (fs', mvs') →
      RunInv fs0 cfg.source (P ++ es) fs' mvs' := by
  intro es
  induction es with
  | nil =>
    intro P fs mvs fs' mvs' hinv hnd h
    simp only [runLoop, Option.some_inj, Prod.mk.injEq] at h
    obtain ⟨rfl, rfl⟩ := h
    simpa using hinv
  | cons e es ih =>
    intro P fs mvs fs' mvs' hinv hnd h
    simp only [runLoop] at h
    cases hstep : stepItem cfg (fs, mvs) e with
    | none => rw [hstep] at h; cases h
    | some st' =>
      rw [hstep] at h
      obtain ⟨fsm, mvsm⟩ := st'
      have he : e ∉ P := by
        intro hc
        exact (List.nodup_append.mp hnd).2.2 hc (by simp)
      have hinv' := stepItem_inv cfg hdp hdry fs0 P fs mvs e fsm mvsm hinv he hstep
      have hnd' : ((P ++ [e]) ++ es).Nodup := by
        rw [List.append_assoc]
        simpa using hnd
      have := ih (P ++ [e]) fsm mvsm fs' mvs' hinv' hnd' h
      rw [List.append_assoc] at this
      simpa using this

/-- During a live default-configuration run, the file at the ledger path is
either untouched or gone (moved away by the C3 slip); it never gains other
content. -/
theorem RunInv.ledger (fs0 : Fs) (src : FsPath) (P : List String) (fs : Fs)
    (mvs : List MoveRec) (h : RunInv fs0 src P fs mvs) :
    lookupP fs.files (src ++ [METADATA_FILE]) =
        lookupP fs0.files (src ++ [METADATA_FILE]) ∨
      lookupP fs.files (src ++ [METADATA_FILE]) = none := by
  by_cases hx : ∀ m ∈ mvs, (src ++ [METADATA_FILE]) ≠ m.sourcePath ∧
      (src ++ [METADATA_FILE]) ≠ m.destPath
  · exact Or.inl (h.frame _ hx)
  · push_neg at hx
    obtain ⟨m, hm, hcase⟩ := hx
    by_cases hs : (src ++ [METADATA_FILE]) = m.sourcePath
    · right
      rw [hs]
      exact h.vacated m hm
    · exfalso
      have hd := hcase hs
      obtain ⟨f', -, r', hr', hdst⟩ := h.dstShape m hm
      apply ne_of_length_ne (src ++ [METADATA_FILE]) m.destPath ?_ hd
      rw [hdst]
      have : 1 ≤ r'.length := List.length_pos.mpr hr'
      simp only [List.length_append, List.length_cons, List.length_singleton, List.length_nil]
      omega

/-- Where the ledger is untouched because the run never listed it. -/
theorem RunInv.ledger_untouched (fs0 : Fs) (src : FsPath) (P : List String)
    (fs : Fs) (mvs : List MoveRec) (h : RunInv fs0 src P fs mvs)
    (hP : METADATA_FILE ∉ P) :
    lookupP fs.files (src ++ [METADATA_FILE]) =
      lookupP fs0.files (src ++ [METADATA_FILE]) := by
  apply h.frame
  intro m hm
  constructor
  · intro hcon
    obtain ⟨nm, hnm, hms⟩ := h.srcShape m hm
    rw [hms] at hcon
    exact hP (((append_singleton_inj _ _ _).mp hcon) ▸ hnm)
  · obtain ⟨f', -, r', hr', hdst⟩ := h.dstShape m hm
    apply ne_of_length_ne
    rw [hdst]
    have : 1 ≤ r'.length := List.length_pos.mpr hr'
    simp only [List.length_append, List.length_cons, List.length_singleton, List.length_nil]
    omega

/-- A live completed run in the default destination configuration: the
final state is the loop state (described by the invariant) with the ledger
rewritten to prior history plus this run's record. -/
theorem runOrganize_live (fs0 : Fs) (cfg : Config) (ts : Nat)
    (entries : List String) (fs1 : Fs) (mvs : List MoveRec)
    (hdp : cfg.destParent = none) (hdry : cfg.dryRun = false)
    (hnd : entries.Nodup)
    (hrun : runOrganize fs0 cfg ts entries = .done fs1 mvs) :
    ∃ (fsL : Fs) (prior : List RunRecord),
      RunInv fs0 cfg.source entries fsL mvs ∧
      fs1 = fsL.setFile (cfg.source ++ [METADATA_FILE])
        (ledgerInfo (prior ++ [⟨ts, mvs⟩])) ∧
      (∀ fiL, lookupP fsL.files (cfg.source ++ [METADATA_FILE]) = some fiL →
        (fiL.data = .jlist prior ∨ (∃ r, fiL.data = .jrun r ∧ prior = [r]) ∨
          (∃ b, fiL.data = .blob b ∧ prior = []))) ∧
      (lookupP fsL.files (cfg.source ++ [METADATA_FILE]) = none → prior = []) := by
  unfold runOrganize at hrun
  by_cases hsrc : fs0.IsDir cfg.source
  · rw [if_neg (by simpa using hsrc)] at hrun
    cases hloop : runLoop cfg (fs0, []) entries with
    | none => rw [hloop] at hrun; cases hrun
    | some st =>
      rw [hloop] at hrun
      obtain ⟨fsL, moves⟩ := st
      rw [hdry] at hrun
      simp only [Bool.false_eq_true, if_false] at hrun
      have hinv0 : RunInv fs0 cfg.source [] fs0 [] := by
        refine ⟨by simp, by simp, by simp, by simp, by simp, by simp, by simp,
          fun p _ => rfl, fun d hd => hd, fun d hd => Or.inl hd, by simp⟩
      have hinv := runLoop_inv cfg hdp hdry fs0 entries [] fs0 [] fsL moves hinv0
        (by simpa using hnd) hloop
      simp only [List.nil_append] at hinv
      simp only [writeHistory] at hrun
      cases hled : lookupP fsL.files (cfg.source ++ [METADATA_FILE]) with
      | some fiL =>
        rw [hled] at hrun
        simp only [OrgResult.done.injEq] at hrun
        obtain ⟨hfs1, rfl⟩ := hrun
        cases hdata : fiL.data with
        | blob b =>
          refine ⟨fsL, [], hinv, ?_, ?_, ?_⟩
          · rw [← hfs1, hdata]
            rfl
          · intro fiL' hfiL'
            rw [hled] at hfiL'
            obtain rfl := Option.some_inj.mp hfiL'.symm
            exact Or.inr (Or.inr ⟨b, hdata, rfl⟩)
          · intro hc; exact absurd (hled.symm.trans hc) (by simp)
        | jlist rs =>
          refine ⟨fsL, rs, hinv, ?_, ?_, ?_⟩
          · rw [← hfs1, hdata]
          · intro fiL' hfiL'
            rw [hled] at hfiL'
            obtain rfl := Option.some_inj.mp hfiL'.symm
            exact Or.inl hdata
          · intro hc; exact absurd (hled.symm.trans hc) (by simp)
        | jrun r =>
          refine ⟨fsL, [r], hinv, ?_, ?_, ?_⟩
          · rw [← hfs1, hdata]
            rfl
          · intro fiL' hfiL'
            rw [hled] at hfiL'
            obtain rfl := Option.some_inj.mp hfiL'.symm
            exact Or.inr (Or.inl ⟨r, hdata, rfl⟩)
          · intro hc; exact absurd (hled.symm.trans hc) (by simp)
      | none =>
        rw [hled] at hrun
        by_cases hdirL : fsL.IsDir (cfg.source ++ [METADATA_FILE])
        · rw [if_pos hdirL] at hrun; cases hrun
        · rw [if_neg hdirL] at hrun
          simp only [OrgResult.done.injEq] at hrun
          obtain ⟨hfs1, rfl⟩ := hrun
          refine ⟨fsL, [], hinv, by rw [← hfs1]; rfl, ?_, fun _ => rfl⟩
          intro fiL' hfiL'
          rw [hled] at hfiL'
          cases hfiL'
  · rw [if_pos (by simpa using hsrc)] at hrun
    cases hrun

/-- Claim C9: a live run (default destination configuration) over a source
whose existing ledger file is not parseable JSON silently replaces the
ledger with a list holding only the new run's record — the previously
persisted history is discarded.  The except branch at lines 134-135 maps
the parse failure to an empty history with no log call; and if the
unparseable ledger file was itself moved away by the loop (the C3 slip),
the exists() test fails and the fresh-ledger branch writes the same thing. -/
theorem C9_unparseable_replaced (fs0 : Fs) (cfg : Config) (ts : Nat)
    (entries : List String) (fs1 : Fs) (mvs : List MoveRec) (fi0 : FileInfo) (b : Nat)
    (hdp : cfg.destParent = none) (hdry : cfg.dryRun = false) (hnd : entries.Nodup)
    (hled : lookupP fs0.files (cfg.source ++ [METADATA_FILE]) = some fi0)
    (hblob : fi0.data = .blob b)
    (hrun : runOrganize fs0 cfg ts entries = .done fs1 mvs) :
    lookupP fs1.files (cfg.source ++ [METADATA_FILE]) =
      some (ledgerInfo [⟨ts, mvs⟩]) := by
  obtain ⟨fsL, prior, hinv, hfs1, hsome, hnone⟩ :=
    runOrganize_live fs0 cfg ts entries fs1 mvs hdp hdry hnd hrun
  have hprior : prior = [] := by
    rcases RunInv.ledger fs0 cfg.source entries fsL mvs hinv with hl | hl
    · rw [hled] at hl
      rcases hsome fi0 hl with hj | ⟨r, hr, -⟩ | ⟨b', -, hp⟩
      · rw [hblob] at hj; cases hj
      · rw [hblob] at hr; cases hr
      · exact hp
    · exact hnone hl
  rw [hfs1, lookupP_setFile, if_pos rfl, hprior]
  rfl

/-- Claim C9 witness: the theorem applied at a source holding an
unparseable ledger and one image file. -/
theorem C9_unparseable_replaced_witness :
    lookupP (Fs.mk [(["s", ".organize_history.json"],
        ⟨.jlist [⟨9, [⟨["s", "a.png"], ["s", "Images", "a.png"], false⟩]⟩], 1, (1970, 1)⟩),
        (["s", "Images", "a.png"], ⟨.blob 1, 5, (2024, 3)⟩)]
        [["s"], ["s", "Images"]]).files (["s"] ++ [METADATA_FILE]) =
      some (ledgerInfo [⟨9, [⟨["s", "a.png"], ["s", "Images", "a.png"], false⟩]⟩]) :=
  C9_unparseable_replaced
    ⟨[(["s", ".organize_history.json"], ⟨.blob 7, 1, (2024, 1)⟩),
      (["s", "a.png"], ⟨.blob 1, 5, (2024, 3)⟩)], [["s"]]⟩
    ⟨["s"], none, false, false, 0⟩ 9 ["a.png"]
    (Fs.mk [(["s", ".organize_history.json"],
        ⟨.jlist [⟨9, [⟨["s", "a.png"], ["s", "Images", "a.png"], false⟩]⟩], 1, (1970, 1)⟩),
        (["s", "Images", "a.png"], ⟨.blob 1, 5, (2024, 3)⟩)]
        [["s"], ["s", "Images"]])
    [⟨["s", "a.png"], ["s", "Images", "a.png"], false⟩]
    ⟨.blob 7, 1, (2024, 1)⟩ 7 rfl rfl (by decide) rfl rfl (by rfl)

/-- Claim C7 (amended): run_organize's ledger write tolerates both
persisted shapes — it appends to a JSON list, and it normalizes a legacy
single-record file to a two-element list — but undo_last does NOT tolerate
the legacy shape: a single-record ledger is reported as corrupt/empty
history.  (The write-side statements assume the ledger file is not among
the iterated entries; when it is listed, the C3 slip moves it away first
and the prior history is lost regardless of shape.) -/
theorem C7_legacy_shapes :
    (∀ (fs0 : Fs) (cfg : Config) (ts : Nat) (entries : List String)
        (fs1 : Fs) (mvs : List MoveRec) (fi0 : FileInfo) (r : RunRecord),
      cfg.destParent = none → cfg.dryRun = false → entries.Nodup →
      METADATA_FILE ∉ entries →
      lookupP fs0.files (cfg.source ++ [METADATA_FILE]) = some fi0 →
      fi0.data = .jrun r →
      runOrganize fs0 cfg ts entries = .done fs1 mvs →
      lookupP fs1.files (cfg.source ++ [METADATA_FILE]) =
        some (ledgerInfo [r, ⟨ts, mvs⟩])) ∧
    (∀ (fs0 : Fs) (cfg : Config) (ts : Nat) (entries : List String)
        (fs1 : Fs) (mvs : List MoveRec) (fi0 : FileInfo) (rs : List RunRecord),
      cfg.destParent = none → cfg.dryRun = false → entries.Nodup →
      METADATA_FILE ∉ entries →
      lookupP fs0.files (cfg.source ++ [METADATA_FILE]) = some fi0 →
      fi0.data = .jlist rs →
      runOrganize fs0 cfg ts entries = .done fs1 mvs →
      lookupP fs1.files (cfg.source ++ [METADATA_FILE]) =
        some (ledgerInfo (rs ++ [⟨ts, mvs⟩]))) ∧
    (∀ (fs : Fs) (source : FsPath) (fi : FileInfo) (r : RunRecord),
      lookupP fs.files (source ++ [METADATA_FILE]) = some fi →
      fi.data = .jrun r →
      runUndo fs source = (.corrupt, fs)) := by
  refine ⟨?_, ?_, ?_⟩
  · intro fs0 cfg ts entries fs1 mvs fi0 r hdp hdry hnd hmeta hled hjr hrun
    obtain ⟨fsL, prior, hinv, hfs1, hsome, -⟩ :=
      runOrganize_live fs0 cfg ts entries fs1 mvs hdp hdry hnd hrun
    have hl := RunInv.ledger_untouched fs0 cfg.source entries fsL mvs hinv hmeta
    rw [hled] at hl
    have hprior : prior = [r] := by
      rcases hsome fi0 hl with hj | ⟨r', hr', hp⟩ | ⟨b', hb', -⟩
      · rw [hjr] at hj; cases hj
      · rw [hjr] at hr'
        cases hr'
        exact hp
      · rw [hjr] at hb'; cases hb'
    rw [hfs1, lookupP_setFile, if_pos rfl, hprior]
    rfl
  · intro fs0 cfg ts entries fs1 mvs fi0 rs hdp hdry hnd hmeta hled hjl hrun
    obtain ⟨fsL, prior, hinv, hfs1, hsome, -⟩ :=
      runOrganize_live fs0 cfg ts entries fs1 mvs hdp hdry hnd hrun
    have hl := RunInv.ledger_untouched fs0 cfg.source entries fsL mvs hinv hmeta
    rw [hled] at hl
    have hprior : prior = rs := by
      rcases hsome fi0 hl with hj | ⟨r', hr', -⟩ | ⟨b', hb', -⟩
      · rw [hjl] at hj
        cases hj
        rfl
      · rw [hjl] at hr'; cases hr'
      · rw [hjl] at hb'; cases hb'
    rw [hfs1, lookupP_setFile, if_pos rfl, hprior]
  · intro fs source fi r h hb
    exact runUndo_jrun fs source fi r h hb

/-- Claim C7 witness: the write accepting both shapes and the undo
rejecting the legacy one, at concrete states. -/
theorem C7_legacy_shapes_witness :
    lookupP (Fs.mk [(["s", ".organize_history.json"],
        ⟨.jlist [⟨0, []⟩, ⟨9, [⟨["s", "a.png"], ["s", "Images", "a.png"], false⟩]⟩], 1,
          (1970, 1)⟩),
        (["s", "Images", "a.png"], ⟨.blob 1, 5, (2024, 3)⟩)]
        [["s"], ["s", "Images"]]).files (["s"] ++ [METADATA_FILE]) =
      some (ledgerInfo [⟨0, []⟩, ⟨9, [⟨["s", "a.png"], ["s", "Images", "a.png"], false⟩]⟩]) ∧
    lookupP (Fs.mk [(["s", ".organize_history.json"],
        ⟨.jlist [⟨0, []⟩, ⟨9, [⟨["s", "a.png"], ["s", "Images", "a.png"], false⟩]⟩], 1,
          (1970, 1)⟩),
        (["s", "Images", "a.png"], ⟨.blob 1, 5, (2024, 3)⟩)]
        [["s"], ["s", "Images"]]).files (["s"] ++ [METADATA_FILE]) =
      some (ledgerInfo ([⟨0, []⟩] ++ [⟨9, [⟨["s", "a.png"], ["s", "Images", "a.png"], false⟩]⟩])) ∧
    runUndo ⟨[(["s", ".organize_history.json"], ⟨.jrun ⟨3, []⟩, 1, (2024, 1)⟩)], [["s"]]⟩ ["s"] =
      (.corrupt, ⟨[(["s", ".organize_history.json"], ⟨.jrun ⟨3, []⟩, 1, (2024, 1)⟩)], [["s"]]⟩) := by
  refine ⟨?_, ?_, ?_⟩
  · exact C7_legacy_shapes.1
      ⟨[(["s", ".organize_history.json"], ⟨.jrun ⟨0, []⟩, 1, (2024, 1)⟩),
        (["s", "a.png"], ⟨.blob 1, 5, (2024, 3)⟩)], [["s"]]⟩
      ⟨["s"], none, false, false, 0⟩ 9 ["a.png"]
      (Fs.mk [(["s", ".organize_history.json"],
          ⟨.jlist [⟨0, []⟩, ⟨9, [⟨["s", "a.png"], ["s", "Images", "a.png"], false⟩]⟩], 1,
            (1970, 1)⟩),
          (["s", "Images", "a.png"], ⟨.blob 1, 5, (2024, 3)⟩)]
          [["s"], ["s", "Images"]])
      [⟨["s", "a.png"], ["s", "Images", "a.png"], false⟩]
      ⟨.jrun ⟨0, []⟩, 1, (2024, 1)⟩ ⟨0, []⟩ rfl rfl (by decide) (by decide) rfl rfl (by rfl)
  · exact C7_legacy_shapes.2.1
      ⟨[(["s", ".organize_history.json"], ⟨.jlist [⟨0, []⟩], 1, (2024, 1)⟩),
        (["s", "a.png"], ⟨.blob 1, 5, (2024, 3)⟩)], [["s"]]⟩
      ⟨["s"], none, false, false, 0⟩ 9 ["a.png"]
      (Fs.mk [(["s", ".organize_history.json"],
          ⟨.jlist [⟨0, []⟩, ⟨9, [⟨["s", "a.png"], ["s", "Images", "a.png"], false⟩]⟩], 1,
            (1970, 1)⟩),
          (["s", "Images", "a.png"], ⟨.blob 1, 5, (2024, 3)⟩)]
          [["s"], ["s", "Images"]])
      [⟨["s", "a.png"], ["s", "Images", "a.png"], false⟩]
      ⟨.jlist [⟨0, []⟩], 1, (2024, 1)⟩ [⟨0, []⟩] rfl rfl (by decide) (by decide) rfl rfl (by rfl)
  · exact C7_legacy_shapes.2.2
      ⟨[(["s", ".organize_history.json"], ⟨.jrun ⟨3, []⟩, 1, (2024, 1)⟩)], [["s"]]⟩
      ["s"] ⟨.jrun ⟨3, []⟩, 1, (2024, 1)⟩ ⟨3, []⟩ rfl rfl

/-! ## Collision handling (claim C6) -/

/-- A live step either appends no record or appends one unexecuted-flagless
record whose recorded destination actually holds the moved file. -/
theorem stepItem_live_append (cfg : Config) (hdry : cfg.dryRun = false)
    (fs fs2 : Fs) (mvs mvs2 : List MoveRec) (e : String)
    (hstep : stepItem cfg (fs, mvs) e = some (fs2, mvs2)) :
    mvs2 = mvs ∨ ∃ fi finalP,
      lookupP fs.files (cfg.source ++ [e]) = some fi ∧
      mvs2 = mvs ++ [⟨cfg.source ++ [e], finalP, false⟩] ∧
      lookupP fs2.files finalP = some fi := by
  simp only [stepItem] at hstep
  by_cases hdir : fs.IsDir (cfg.source ++ [e])
  · rw [if_pos hdir] at hstep
    simp only [Option.some_inj, Prod.mk.injEq] at hstep
    exact Or.inl hstep.2.symm
  · rw [if_neg hdir] at hstep
    cases hlook : lookupP fs.files (cfg.source ++ [e]) with
    | none => rw [hlook] at hstep; cases hstep
    | some fi =>
      rw [hlook] at hstep
      simp only [] at hstep
      by_cases hsize : fi.size < cfg.minSizeKb * 1024
      · rw [if_pos hsize] at hstep
        simp only [Option.some_inj, Prod.mk.injEq] at hstep
        exact Or.inl hstep.2.symm
      · rw [if_neg hsize] at hstep
        cases hmk : fs.mkdirP (targetParentFor cfg fi e) with
        | none => rw [hmk] at hstep; cases hstep
        | some fs1 =>
          rw [hmk] at hstep
          simp only [] at hstep
          rw [hdry] at hstep
          cases hmv : safeMove fs1 (cfg.source ++ [e])
              (targetParentFor cfg fi e ++ [e]) false with
          | none => rw [hmv] at hstep; cases hstep
          | some pr =>
            rw [hmv] at hstep
            obtain ⟨fs2', finOpt⟩ := pr
            obtain ⟨finalP, rfl⟩ := safeMove_live_isSome _ _ _ _ _ hmv
            simp only [Option.some_inj, Prod.mk.injEq] at hstep
            obtain ⟨rfl, rfl⟩ := hstep
            obtain ⟨fs1b, hmk2, ⟨n, hfn, hfree, -⟩, hsm⟩ :=
              safeMove_live _ _ _ _ _ hmv
            have hdl : (targetParentFor cfg fi e ++ [e]).dropLast =
                targetParentFor cfg fi e := by simp
            rw [hdl, mkdirP_idem fs fs1 _ hmk] at hmk2
            have hfb : fs1 = fs1b := Option.some_inj.mp hmk2
            subst hfb
            have hnd1 : ¬ fs1.IsDir finalP := fun hd => hfree (Or.inr hd)
            have hlook1 : lookupP fs1.files (cfg.source ++ [e]) = some fi := by
              rw [mkdirP_files _ _ _ hmk]; exact hlook
            rw [shutilMove_not_dir fs1 _ _ fi hlook1 hnd1] at hsm
            obtain rfl := Option.some_inj.mp hsm
            refine Or.inr ⟨fi, finalP, rfl, rfl, ?_⟩
            rw [lookupP_setFile, if_pos rfl]

/-- Claim C6: when the candidate destination is occupied before a live
move, the physical move happens only after a free numbered variant
name_N.ext is found (N walks up from 1 past the occupied candidates), the
file lands there, the occupant of the candidate path is untouched, and the
record run_organize appends carries the path actually used. -/
theorem C6_collision :
    (∀ (fs fs' : Fs) (src dest finalP : FsPath) (fi : FileInfo),
      lookupP fs.files src = some fi → src ≠ dest →
      fs.PathExists dest →
      safeMove fs src dest false = some (fs', some finalP) →
      ∃ fs1 n, fs.mkdirP dest.dropLast = some fs1 ∧ 1 ≤ n ∧
        finalP = nthCand dest n ∧ finalP ≠ dest ∧
        ¬ fs1.PathExists finalP ∧
        (∀ j, j < n → fs1.PathExists (nthCand dest j)) ∧
        lookupP fs'.files finalP = some fi ∧
        lookupP fs'.files dest = lookupP fs.files dest) ∧
    (∀ (cfg : Config) (fs fs2 : Fs) (mvs mvs2 : List MoveRec) (e : String),
      cfg.dryRun = false →
      stepItem cfg (fs, mvs) e = some (fs2, mvs2) →
      mvs2 = mvs ∨ ∃ fi finalP,
        lookupP fs.files (cfg.source ++ [e]) = some fi ∧
        mvs2 = mvs ++ [⟨cfg.source ++ [e], finalP, false⟩] ∧
        lookupP fs2.files finalP = some fi) := by
  constructor
  · intro fs fs' src dest finalP fi hsrc hsd hocc hmv
    obtain ⟨fs1, hmk, ⟨n, hfn, hfree, hoccs⟩, hsm⟩ := safeMove_live _ _ _ _ _ hmv
    have hocc1 : fs1.PathExists dest := by
      rw [PathExists_mkdirP fs fs1 _ dest hmk]
      exact Or.inl hocc
    have hn : 1 ≤ n := by
      rcases Nat.eq_zero_or_pos n with rfl | h
      · exfalso
        apply hfree
        rw [hfn]
        simpa [nthCand] using hocc1
      · exact h
    have hfd : finalP ≠ dest := by
      intro hcon
      exact hfree (hcon ▸ hocc1)
    have hnd1 : ¬ fs1.IsDir finalP := fun hd => hfree (Or.inr hd)
    have hsrc1 : lookupP fs1.files src = some fi := by
      rw [mkdirP_files _ _ _ hmk]; exact hsrc
    rw [shutilMove_not_dir fs1 src finalP fi hsrc1 hnd1] at hsm
    have hfs' : fs' = (fs1.eraseFile src).setFile finalP fi :=
      (Option.some_inj.mp hsm).symm
    refine ⟨fs1, n, hmk, hn, hfn, hfd, hfree, hoccs, ?_, ?_⟩
    · rw [hfs', lookupP_setFile, if_pos rfl]
    · rw [hfs', lookupP_setFile, if_neg (fun h => hfd h.symm),
        lookupP_eraseFile, if_neg (fun h => hsd h.symm), mkdirP_files _ _ _ hmk]
  · exact fun cfg fs fs2 mvs mvs2 e hdry hstep =>
      stepItem_live_append cfg hdry fs fs2 mvs mvs2 e hstep

/-- Claim C6 witness: a move whose candidate Images/a.png and first variant
Images/a_1.png are taken lands at Images/a_2.png, leaving both occupants in
place, and a live step records the path actually used. -/
theorem C6_collision_witness :
    (∃ fs1 n,
      (Fs.mk [(["s", "a.png"], ⟨.blob 1, 5, (2024, 3)⟩),
        (["s", "Images", "a.png"], ⟨.blob 2, 5, (2024, 3)⟩),
        (["s", "Images", "a_1.png"], ⟨.blob 3, 5, (2024, 3)⟩)]
        [["s"], ["s", "Images"]]).mkdirP (["s", "Images", "a.png"] : FsPath).dropLast =
          some fs1 ∧
      1 ≤ n ∧
      (["s", "Images", "a_2.png"] : FsPath) = nthCand ["s", "Images", "a.png"] n ∧
      (["s", "Images", "a_2.png"] : FsPath) ≠ ["s", "Images", "a.png"] ∧
      ¬ fs1.PathExists ["s", "Images", "a_2.png"] ∧
      (∀ j, j < n → fs1.PathExists (nthCand ["s", "Images", "a.png"] j)) ∧
      lookupP (Fs.mk [(["s", "Images", "a_2.png"], ⟨.blob 1, 5, (2024, 3)⟩),
        (["s", "Images", "a.png"], ⟨.blob 2, 5, (2024, 3)⟩),
        (["s", "Images", "a_1.png"], ⟨.blob 3, 5, (2024, 3)⟩)]
        [["s"], ["s", "Images"]]).files ["s", "Images", "a_2.png"] =
          some ⟨.blob 1, 5, (2024, 3)⟩ ∧
      lookupP (Fs.mk [(["s", "Images", "a_2.png"], ⟨.blob 1, 5, (2024, 3)⟩),
        (["s", "Images", "a.png"], ⟨.blob 2, 5, (2024, 3)⟩),
        (["s", "Images", "a_1.png"], ⟨.blob 3, 5, (2024, 3)⟩)]
        [["s"], ["s", "Images"]]).files ["s", "Images", "a.png"] =
          lookupP (Fs.mk [(["s", "a.png"], ⟨.blob 1, 5, (2024, 3)⟩),
            (["s", "Images", "a.png"], ⟨.blob 2, 5, (2024, 3)⟩),
            (["s", "Images", "a_1.png"], ⟨.blob 3, 5, (2024, 3)⟩)]
            [["s"], ["s", "Images"]]).files ["s", "Images", "a.png"]) := by
  exact C6_collision.1
    (Fs.mk [(["s", "a.png"], ⟨.blob 1, 5, (2024, 3)⟩),
      (["s", "Images", "a.png"], ⟨.blob 2, 5, (2024, 3)⟩),
      (["s", "Images", "a_1.png"], ⟨.blob 3, 5, (2024, 3)⟩)]
      [["s"], ["s", "Images"]])
    (Fs.mk [(["s", "Images", "a_2.png"], ⟨.blob 1, 5, (2024, 3)⟩),
      (["s", "Images", "a.png"], ⟨.blob 2, 5, (2024, 3)⟩),
      (["s", "Images", "a_1.png"], ⟨.blob 3, 5, (2024, 3)⟩)]
      [["s"], ["s", "Images"]])
    ["s", "a.png"] ["s", "Images", "a.png"] ["s", "Images", "a_2.png"]
    ⟨.blob 1, 5, (2024, 3)⟩ rfl (by decide) (by decide) (by rfl)

/-! ## The round trip (claim C1) -/

/-- Replaying restore steps over records satisfying the post-run
conditions restores every one of them: each source path regains its
original file, each destination is vacated, untouched paths stay as they
were, and the only directories that can appear are ancestors of the source
directory. -/
theorem replayRev_restores (fs0 : Fs) (src : FsPath) :
    ∀ (R : List MoveRec) (fsu fsr : Fs),
      (∀ m ∈ R, lookupP fsu.files m.destPath = lookupP fs0.files m.sourcePath ∧
        (lookupP fs0.files m.sourcePath).isSome = true) →
      (∀ m ∈ R, ∃ nm, m.sourcePath = src ++ [nm]) →
      (∀ m ∈ R, src.length + 2 ≤ m.destPath.length) →
      (R.map MoveRec.sourcePath).Nodup →
      (R.map MoveRec.destPath).Nodup →
      (∀ m ∈ R, ¬ fsu.IsDir m.sourcePath) →
      replayRev fsu R = .ok fsr →
      (∀ m ∈ R, lookupP fsr.files m.sourcePath = lookupP fs0.files m.sourcePath ∧
        lookupP fsr.files m.destPath = none) ∧
      (∀ p : FsPath, (∀ m ∈ R, p ≠ m.sourcePath ∧ p ≠ m.destPath) →
        lookupP fsr.files p = lookupP fsu.files p) ∧
      (∀ d ∈ fsr.dirs, d ∈ fsu.dirs ∨ ∃ k, d = src.take (k + 1)) := by
  intro R
  induction R with
  | nil =>
    intro fsu fsr _ _ _ _ _ _ hrep
    simp only [replayRev, Except.ok.injEq] at hrep
    subst hrep
    exact ⟨by simp, fun p _ => rfl, fun d hd => Or.inl hd⟩
  | cons m R' ih =>
    intro fsu fsr hcont hshape hdlen hsnd hdnd hnotdir hrep
    rw [List.map_cons, List.nodup_cons] at hsnd hdnd
    simp only [replayRev] at hrep
    cases hrs : restoreStep fsu m with
    | none => rw [hrs] at hrep; cases hrep
    | some fsv =>
      rw [hrs] at hrep
      simp only [] at hrep
      -- resolve the restore step
      have hc := hcont m (by simp)
      cases hdc : lookupP fs0.files m.sourcePath with
      | none =>
        rw [hdc] at hc
        exact absurd hc.2 (by simp)
      | some c =>
        have hfrm : lookupP fsu.files m.destPath = some c := by
          rw [hc.1, hdc]
        have hex : fsu.PathExists m.destPath := Or.inl (by
          show (lookupP fsu.files m.destPath).isSome = true
          rw [hfrm]; rfl)
        obtain ⟨nm, hnm⟩ := hshape m (by simp)
        have hdl : m.sourcePath.dropLast = src := by rw [hnm]; simp
        simp only [restoreStep] at hrs
        rw [if_pos hex] at hrs
        cases hmkr : fsu.mkdirP m.sourcePath.dropLast with
        | none => rw [hmkr] at hrs; cases hrs
        | some fsm =>
          rw [hmkr] at hrs
          simp only [] at hrs
          have hfrm' : lookupP fsm.files m.destPath = some c := by
            rw [mkdirP_files _ _ _ hmkr]; exact hfrm
          have hsplen : m.sourcePath.length = src.length + 1 := by
            rw [hnm]; simp
          have hndm : ¬ fsm.IsDir m.sourcePath := by
            intro hd
            rcases (mkdirP_dirs _ _ _ hmkr _).mp hd with hd' | ha
            · exact hnotdir m (by simp) hd'
            · rw [hdl] at ha
              have hlen := length_of_mem_ancestorsOf _ _ ha
              omega
          rw [shutilMove_not_dir fsm _ _ c hfrm' hndm] at hrs
          have hfsv : fsv = (fsm.eraseFile m.destPath).setFile m.sourcePath c :=
            (Option.some_inj.mp hrs).symm
          -- lookups in fsv
          have hlkv : ∀ q, lookupP fsv.files q =
              if q = m.sourcePath then some c
              else if q = m.destPath then none
              else lookupP fsu.files q := by
            intro q
            rw [hfsv, lookupP_setFile, lookupP_eraseFile, mkdirP_files _ _ _ hmkr]
          have hdirveq : fsv.dirs = fsm.dirs := by rw [hfsv]; rfl
          -- freshness of this record against the rest
          have hsrc_tail : ∀ m' ∈ R', m.sourcePath ≠ m'.sourcePath := by
            intro m' hm' hcon
            exact hsnd.1 (by
              rw [hcon]
              exact List.mem_map.mpr ⟨m', hm', rfl⟩)
          have hdst_tail : ∀ m' ∈ R', m.destPath ≠ m'.destPath := by
            intro m' hm' hcon
            exact hdnd.1 (by
              rw [hcon]
              exact List.mem_map.mpr ⟨m', hm', rfl⟩)
          have hsp_len : ∀ m' ∈ R', m'.sourcePath.length = src.length + 1 := by
            intro m' hm'
            obtain ⟨nm', hnm'⟩ := hshape m' (by simp [hm'])
            rw [hnm']; simp
          -- hypotheses for the tail at fsv
          have hcont' : ∀ m' ∈ R',
              lookupP fsv.files m'.destPath = lookupP fs0.files m'.sourcePath ∧
              (lookupP fs0.files m'.sourcePath).isSome = true := by
            intro m' hm'
            refine ⟨?_, (hcont m' (by simp [hm'])).2⟩
            rw [hlkv, if_neg, if_neg (fun h => hdst_tail m' hm' h.symm)]
            · exact (hcont m' (by simp [hm'])).1
            · apply ne_of_length_ne
              have := hdlen m' (by simp [hm'])
              omega
          have hnotdir' : ∀ m' ∈ R', ¬ fsv.IsDir m'.sourcePath := by
            intro m' hm' hd
            rw [Fs.IsDir, hdirveq] at hd
            rcases (mkdirP_dirs _ _ _ hmkr _).mp hd with hd' | ha
            · exact hnotdir m' (by simp [hm']) hd'
            · rw [hdl] at ha
              have hlen := length_of_mem_ancestorsOf _ _ ha
              have := hsp_len m' hm'
              omega
          obtain ⟨hres', hframe', hdirs'⟩ := ih fsv fsr hcont'
            (fun m' hm' => hshape m' (by simp [hm']))
            (fun m' hm' => hdlen m' (by simp [hm']))
            hsnd.2 hdnd.2
            hnotdir' hrep
          refine ⟨?_, ?_, ?_⟩
          · intro m'' hm''
            rcases List.mem_cons.mp hm'' with rfl | hm''
            · constructor
              · rw [hframe' _ (fun m' hm' => ⟨hsrc_tail m' hm', by
                  apply ne_of_length_ne
                  have := hdlen m' (by simp [hm'])
                  omega⟩)]
                rw [hlkv, if_pos rfl, hdc]
              · rw [hframe' _ (fun m' hm' => ⟨by
                  apply ne_of_length_ne
                  have := hdlen m'' (by simp)
                  have := hsp_len m' hm'
                  omega, fun h => hdst_tail m' hm' h⟩)]
                rw [hlkv, if_neg, if_pos rfl]
                apply ne_of_length_ne
                have := hdlen m'' (by simp)
                omega
            · exact hres' m'' hm''
          · intro p hp
            rw [hframe' p (fun m' hm' => hp m' (by simp [hm']))]
            have hpm := hp m (by simp)
            rw [hlkv, if_neg hpm.1, if_neg hpm.2]
          · intro d hd
            rcases hdirs' d hd with hd' | hk
            · rw [hdirveq] at hd'
              rcases (mkdirP_dirs _ _ _ hmkr _).mp hd' with hd'' | ha
              · exact Or.inl hd''
              · rw [hdl] at ha
                rw [mem_ancestorsOf] at ha
                obtain ⟨k, -, hkq⟩ := ha
                exact Or.inr ⟨k, hkq⟩
            · exact Or.inr hk

/-- runUndo on a ledger holding prior history plus a last record. -/
theorem runUndo_jlist_concat (fs : Fs) (source : FsPath) (fi : FileInfo)
    (prior : List RunRecord) (rec : RunRecord)
    (h : lookupP fs.files (source ++ [METADATA_FILE]) = some fi)
    (hb : fi.data = .jlist (prior ++ [rec])) :
    runUndo fs source =
      (match replayRev fs rec.moves.reverse with
        | .error fsx => (.crashed, fsx)
        | .ok fs1 =>
          if fs1.IsDir (source ++ [METADATA_FILE]) then (.crashed, fs1)
          else (.ok, fs1.setFile (source ++ [METADATA_FILE]) (ledgerInfo prior))) := by
  cases prior with
  | nil =>
    rw [runUndo_jlist fs source fi rec [] h hb]
    simp
  | cons p ps =>
    rw [runUndo_jlist fs source fi p (ps ++ [rec]) h hb]
    have h1 : (p :: (ps ++ [rec])).getLast (by simp) = rec :=
      List.getLast_append_singleton (p :: ps)
    have h2 : (p :: (ps ++ [rec])).dropLast = p :: ps :=
      @List.dropLast_concat RunRecord (p :: ps) rec
    rw [h1, h2]

/-- Claim C1 counterexample: over a source that still carries the previous
run's ledger file, a live run then undo does NOT restore every moved file.
The run moves the ledger file itself to Other/ (the C3 slip) and records
that move; the undo moves it back, but the final ledger rewrite then
overwrites that path with the popped history, so the file at the recorded
source path afterwards is the rewritten empty history, not the original
file. -/
theorem C1_counterexample :
    runOrganize
        ⟨[(["s", ".organize_history.json"], ⟨.blob 42, 1, (2024, 1)⟩),
          (["s", "a.png"], ⟨.blob 1, 5, (2024, 3)⟩)], [["s"]]⟩
        ⟨["s"], none, false, false, 0⟩ 9 [".organize_history.json", "a.png"] =
      .done
        ⟨[(["s", ".organize_history.json"],
            ⟨.jlist [⟨9, [⟨["s", ".organize_history.json"],
                ["s", "Other", ".organize_history.json"], false⟩,
              ⟨["s", "a.png"], ["s", "Images", "a.png"], false⟩]⟩], 1, (1970, 1)⟩),
          (["s", "Images", "a.png"], ⟨.blob 1, 5, (2024, 3)⟩),
          (["s", "Other", ".organize_history.json"], ⟨.blob 42, 1, (2024, 1)⟩)],
         [["s"], ["s", "Other"], ["s", "Images"]]⟩
        [⟨["s", ".organize_history.json"], ["s", "Other", ".organize_history.json"], false⟩,
         ⟨["s", "a.png"], ["s", "Images", "a.png"], false⟩] ∧
    runUndo
        ⟨[(["s", ".organize_history.json"],
            ⟨.jlist [⟨9, [⟨["s", ".organize_history.json"],
                ["s", "Other", ".organize_history.json"], false⟩,
              ⟨["s", "a.png"], ["s", "Images", "a.png"], false⟩]⟩], 1, (1970, 1)⟩),
          (["s", "Images", "a.png"], ⟨.blob 1, 5, (2024, 3)⟩),
          (["s", "Other", ".organize_history.json"], ⟨.blob 42, 1, (2024, 1)⟩)],
         [["s"], ["s", "Other"], ["s", "Images"]]⟩ ["s"] =
      (.ok, ⟨[(["s", ".organize_history.json"], ⟨.jlist [], 1, (1970, 1)⟩),
        (["s", "a.png"], ⟨.blob 1, 5, (2024, 3)⟩)],
        [["s"], ["s", "Other"], ["s", "Images"]]⟩) ∧
    lookupP (Fs.mk [(["s", ".organize_history.json"], ⟨.jlist [], 1, (1970, 1)⟩),
        (["s", "a.png"], ⟨.blob 1, 5, (2024, 3)⟩)]
        [["s"], ["s", "Other"], ["s", "Images"]]).files
        ["s", ".organize_history.json"] ≠
      some (⟨.blob 42, 1, (2024, 1)⟩ : FileInfo) := by
  refine ⟨rfl, rfl, ?_⟩
  decide

/-- Claim C1 (amended): for a live run in the default destination
configuration, over distinct entries none of which is named like a
category folder, running then undoing restores every moved file whose
source path is not the ledger path itself back to its original source path
with its original content, vacates its recorded destination, and leaves
the ledger holding exactly the prior history, without that run's record.
(A pre-existing ledger file moved by the run is recreated at its source
path by the undo but its content is the rewritten history — see the
counterexample.) -/
theorem C1_roundtrip (fs0 : Fs) (cfg : Config) (ts : Nat) (entries : List String)
    (fs1 fs2 : Fs) (mvs : List MoveRec)
    (hdp : cfg.destParent = none) (hdry : cfg.dryRun = false)
    (hnd : entries.Nodup)
    (hents : ∀ x ∈ entries, x ∉ folderNames)
    (hrun : runOrganize fs0 cfg ts entries = .done fs1 mvs)
    (hundo : runUndo fs1 cfg.source = (.ok, fs2)) :
    (∀ m ∈ mvs, m.sourcePath ≠ cfg.source ++ [METADATA_FILE] →
      lookupP fs2.files m.sourcePath = lookupP fs0.files m.sourcePath ∧
      lookupP fs2.files m.destPath = none) ∧
    ∃ prior : List RunRecord,
      lookupP fs1.files (cfg.source ++ [METADATA_FILE]) =
        some (ledgerInfo (prior ++ [⟨ts, mvs⟩])) ∧
      lookupP fs2.files (cfg.source ++ [METADATA_FILE]) = some (ledgerInfo prior) := by
  obtain ⟨fsL, prior, hinv, hfs1, -, -⟩ :=
    runOrganize_live fs0 cfg ts entries fs1 mvs hdp hdry hnd hrun
  have hled1 : lookupP fs1.files (cfg.source ++ [METADATA_FILE]) =
      some (ledgerInfo (prior ++ [⟨ts, mvs⟩])) := by
    rw [hfs1, lookupP_setFile, if_pos rfl]
  have hdst_len : ∀ m ∈ mvs, cfg.source.length + 2 ≤ m.destPath.length := by
    intro m hm
    obtain ⟨f', -, r', hr', hd⟩ := hinv.dstShape m hm
    rw [hd]
    have : 1 ≤ r'.length := List.length_pos.mpr hr'
    simp only [List.length_append, List.length_cons]
    omega
  have hsrc_len : ∀ m ∈ mvs, m.sourcePath.length = cfg.source.length + 1 := by
    intro m hm
    obtain ⟨nm, -, hms⟩ := hinv.srcShape m hm
    rw [hms]; simp
  have hlk1 : ∀ q, q ≠ cfg.source ++ [METADATA_FILE] →
      lookupP fs1.files q = lookupP fsL.files q := by
    intro q hq
    rw [hfs1, lookupP_setFile, if_neg hq]
  -- unfold the undo through the ledger just written
  rw [runUndo_jlist_concat fs1 cfg.source _ prior ⟨ts, mvs⟩ hled1 rfl] at hundo
  cases hrep : replayRev fs1 (RunRecord.mk ts mvs).moves.reverse with
  | error fsx =>
    rw [hrep] at hundo
    simp only [Prod.mk.injEq] at hundo
    cases hundo.1
  | ok fsr =>
    rw [hrep] at hundo
    simp only [] at hundo
    by_cases hdirr : fsr.IsDir (cfg.source ++ [METADATA_FILE])
    · rw [if_pos hdirr] at hundo
      simp only [Prod.mk.injEq] at hundo
      cases hundo.1
    · rw [if_neg hdirr] at hundo
      simp only [Prod.mk.injEq, true_and] at hundo
      -- apply the replay characterisation
      have hmemrev : ∀ m : MoveRec, m ∈ mvs.reverse ↔ m ∈ mvs := fun m =>
        List.mem_reverse
      have hres := replayRev_restores fs0 cfg.source mvs.reverse fs1 fsr
        (fun m hm => by
          have hm' := hmemrev m |>.mp hm
          refine ⟨?_, (hinv.content m hm').2⟩
          rw [hlk1 _ (by
            apply ne_of_length_ne
            have := hdst_len m hm'
            simp only [List.length_append, List.length_singleton]
            omega)]
          exact (hinv.content m hm').1)
        (fun m hm => by
          obtain ⟨nm, -, hms⟩ := hinv.srcShape m ((hmemrev m).mp hm)
          exact ⟨nm, hms⟩)
        (fun m hm => hdst_len m ((hmemrev m).mp hm))
        (by rw [List.map_reverse]; exact List.nodup_reverse.mpr hinv.srcNodup)
        (by rw [List.map_reverse]; exact List.nodup_reverse.mpr hinv.dstNodup)
        (fun m hm => by
          have hm' := (hmemrev m).mp hm
          intro hd
          have hd' : m.sourcePath ∈ fsL.dirs := by
            have : fs1.dirs = fsL.dirs := by rw [hfs1]; rfl
            rw [Fs.IsDir, this] at hd
            exact hd
          obtain ⟨nm, hnm, hms⟩ := hinv.srcShape m hm'
          rcases hinv.dirsChar _ hd' with h0 | ⟨k, hk⟩ | ⟨f, hf, hform⟩
          · exact hinv.srcNotDir m hm' h0
          · have h1 : m.sourcePath.length ≤ cfg.source.length := by
              rw [hk]
              simp [List.length_take]
            have := hsrc_len m hm'
            omega
          · rcases hform with hform | ⟨y, hform⟩
            · rw [hms] at hform
              exact hents nm hnm (((append_singleton_inj _ _ _).mp hform) ▸ hf)
            · have h1 := congrArg List.length hform
              have := hsrc_len m hm'
              simp only [List.length_append, List.length_cons, List.length_nil] at h1
              omega)
        hrep
      obtain ⟨hrestored, hframe, -⟩ := hres
      constructor
      · intro m hm hmne
        have hm' : m ∈ mvs.reverse := (hmemrev m).mpr hm
        constructor
        · rw [← hundo, lookupP_setFile, if_neg hmne]
          exact (hrestored m hm').1
        · rw [← hundo, lookupP_setFile, if_neg (by
            apply ne_of_length_ne
            have := hdst_len m hm
            simp only [List.length_append, List.length_singleton]
            omega)]
          exact (hrestored m hm').2
      · refine ⟨prior, hled1, ?_⟩
        rw [← hundo, lookupP_setFile, if_pos rfl]

/-- Claim C1 witness: the amended round trip at a concrete one-file run —
a.png is moved to Images/ and the undo brings the state's files back. -/
theorem C1_roundtrip_witness :
    (∀ m ∈ [(⟨["s", "a.png"], ["s", "Images", "a.png"], false⟩ : MoveRec)],
      m.sourcePath ≠ (["s"] : FsPath) ++ [METADATA_FILE] →
      lookupP (Fs.mk [(["s", ".organize_history.json"], ⟨.jlist [], 1, (1970, 1)⟩),
          (["s", "a.png"], ⟨.blob 1, 5, (2024, 3)⟩)]
          [["s"], ["s", "Images"]]).files m.sourcePath =
        lookupP (Fs.mk [(["s", "a.png"], ⟨.blob 1, 5, (2024, 3)⟩)] [["s"]]).files
          m.sourcePath ∧
      lookupP (Fs.mk [(["s", ".organize_history.json"], ⟨.jlist [], 1, (1970, 1)⟩),
          (["s", "a.png"], ⟨.blob 1, 5, (2024, 3)⟩)]
          [["s"], ["s", "Images"]]).files m.destPath = none) ∧
    ∃ prior : List RunRecord,
      lookupP (Fs.mk [(["s", ".organize_history.json"],
          ⟨.jlist [⟨9, [⟨["s", "a.png"], ["s", "Images", "a.png"], false⟩]⟩], 1, (1970, 1)⟩),
          (["s", "Images", "a.png"], ⟨.blob 1, 5, (2024, 3)⟩)]
          [["s"], ["s", "Images"]]).files ((["s"] : FsPath) ++ [METADATA_FILE]) =
        some (ledgerInfo (prior ++
          [⟨9, [⟨["s", "a.png"], ["s", "Images", "a.png"], false⟩]⟩])) ∧
      lookupP (Fs.mk [(["s", ".organize_history.json"], ⟨.jlist [], 1, (1970, 1)⟩),
          (["s", "a.png"], ⟨.blob 1, 5, (2024, 3)⟩)]
          [["s"], ["s", "Images"]]).files ((["s"] : FsPath) ++ [METADATA_FILE]) =
        some (ledgerInfo prior) :=
  C1_roundtrip
    ⟨[(["s", "a.png"], ⟨.blob 1, 5, (2024, 3)⟩)], [["s"]]⟩
    ⟨["s"], none, false, false, 0⟩ 9 ["a.png"]
    (Fs.mk [(["s", ".organize_history.json"],
        ⟨.jlist [⟨9, [⟨["s", "a.png"], ["s", "Images", "a.png"], false⟩]⟩], 1, (1970, 1)⟩),
        (["s", "Images", "a.png"], ⟨.blob 1, 5, (2024, 3)⟩)]
        [["s"], ["s", "Images"]])
    (Fs.mk [(["s", ".organize_history.json"], ⟨.jlist [], 1, (1970, 1)⟩),
        (["s", "a.png"], ⟨.blob 1, 5, (2024, 3)⟩)]
        [["s"], ["s", "Images"]])
    [⟨["s", "a.png"], ["s", "Images", "a.png"], false⟩]
    rfl rfl (by decide) (by decide) (by rfl) (by rfl)

end OrganizeDesktop
